import Mathlib

/-!
Verification of the natural-language specification of
`src/2023-04-10-threads-and-queues.py`: a two-stage concurrent pipeline built
from `StoppingQueue` (a `queue.Queue` subclass with a stop-marker `close` and a
draining iterator), `StoppingWorker` threads, and a `main` coordinator.

The embedding has three layers:

1. A model of Python object identity for the sentinel stop marker
   (`PyVal`, `pyIs`, `PyQueueInst.sentinel`).
2. Functional models of the sequential building blocks taken directly from the
   source: the `StoppingQueue.__iter__` generator (`iterTrace`), the
   `StoppingWorker.run` loop (`workerTrace`, and `workerRunE` for a stage
   function that may raise), `Queue.join` on a drained queue (`QState.joinCall`),
   the `stop_threads` / `main` call sequences (`stop_threads_ops`, `main_ops`),
   and the stage functions `get_token` / `get_result`.
3. A small-step transition system (`Step`) for the whole concurrent program:
   the coordinator `main` runs as one sequential process (its program counter
   `CPC` follows the straight-line code of `main`), and every worker thread of
   both pools is an independent process interleaved nondeterministically.
   Queue operations (`put`, `get`, `task_done`) are the atomic actions, and
   `Queue.join` semantics is modelled by the `unfinished` task counter exactly
   as in `queue.Queue` (incremented by `put`, decremented by `task_done`,
   `join` blocks until it is zero).
-/

namespace ThreadsQueues

/-! ## Python values and object identity (for the sentinel stop marker)

`class StoppingQueue(Queue): sentinel = object()` — the class body is executed
once, when the `class` statement runs, so `object()` is evaluated a single
time.  Object identity is modelled by an allocation id; the sentinel object is
the allocation made at class-definition time. -/

/-- A Python value as used by this program: an int payload, a str payload, or a
featureless `object()` identified by its allocation id. -/
inductive PyVal where
  | int (n : Int)
  | str (s : List Char)
  | obj (oid : Nat)
deriving DecidableEq

/-- CPython `is` (identity) restricted to the comparisons this program can make:
two `object()` allocations are identical iff they are the same allocation.
Values of different runtime types are never the same object.  (Identity of two
equal ints/strs is unspecified in CPython; it is modelled as value equality and
never reaches the sentinel, which is compared only against ints, strs, or
itself.) -/
def pyIs : PyVal → PyVal → Bool
  | PyVal.obj i, PyVal.obj j => i == j
  | PyVal.int a, PyVal.int b => a == b
  | PyVal.str a, PyVal.str b => a == b
  | _, _ => false

/-- The single `object()` allocated by the class body `sentinel = object()`. -/
def sentinelClassAttr : PyVal := PyVal.obj 0

/-- A `StoppingQueue` instance, identified by its own object id. -/
structure PyQueueInst where
  oid : Nat
deriving DecidableEq

/-- Attribute lookup `self.sentinel`: instances never assign `sentinel`, so the
lookup always resolves to the class attribute — every instance sees the same
object. -/
def PyQueueInst.sentinel (_q : PyQueueInst) : PyVal := sentinelClassAttr

/-! ## Queue contents -/

/-- An entry of a `StoppingQueue` buffer: a real payload, or the stop marker
pushed by `close()`. -/
inductive QItem (V : Type) where
  | pay (v : V)
  | stop
deriving DecidableEq

/-- `true` on the stop marker. -/
def QItem.isStop : QItem V → Bool
  | QItem.stop => true
  | _ => false

/-- The payloads of a buffer, in order (stop markers removed). -/
def paysOf (l : List (QItem V)) : List V :=
  l.filterMap fun x => match x with
    | QItem.pay v => some v
    | QItem.stop => none

/-- The number of stop markers in a buffer. -/
def stopsOf (l : List (QItem V)) : Nat := l.countP fun x => x.isStop

/-- The state of one `queue.Queue`: its FIFO buffer plus the `unfinished_tasks`
counter used by `join` (incremented by `put`, decremented by `task_done`). -/
structure QState (V : Type) where
  buf : List (QItem V)
  unfinished : Nat
deriving DecidableEq

/-- `Queue.put`: append to the back and count one more unfinished task. -/
def QState.put (q : QState V) (x : QItem V) : QState V :=
  ⟨q.buf ++ [x], q.unfinished + 1⟩

/-- `Queue.task_done`: one unfinished task acknowledged. -/
def QState.acked (q : QState V) : QState V :=
  ⟨q.buf, q.unfinished - 1⟩

/-- `Queue.join` called at a single point in time: it returns (immediately)
exactly when `unfinished_tasks` is zero, and it does not touch the queue —
otherwise the caller blocks (`none`). -/
def QState.joinCall (q : QState V) : Option (QState V) :=
  if q.unfinished = 0 then some q else none

/-! ## The `StoppingQueue.__iter__` generator

```python
def __iter__(self):
    while True:
        item = self.get()
        try:
            if item is self.sentinel:
                return
            yield item
        finally:
            self.task_done()
```

The generator pops an item; a payload is yielded and `task_done` runs when the
consumer asks for the next element; the sentinel is not yielded, `task_done`
runs in the `finally`, and the iteration ends. -/

/-- Observable events of the iterator: yielding a payload back to the consumer,
and acknowledging the previously popped item via `task_done`. -/
inductive IterEv (V : Type) where
  | yieldE (v : V)
  | ackE
deriving DecidableEq

/-- The event trace of iterating a `StoppingQueue` whose buffer holds `l`
(events after the terminating stop marker never happen; an empty buffer means
the iterator blocks in `get` with no further events). -/
def iterTrace : List (QItem V) → List (IterEv V)
  | [] => []
  | QItem.stop :: _ => [IterEv.ackE]
  | QItem.pay v :: rest => IterEv.yieldE v :: IterEv.ackE :: iterTrace rest

/-- The payloads an iterator trace hands back to the consumer, in order. -/
def yieldsOf (tr : List (IterEv V)) : List V :=
  tr.filterMap fun e => match e with
    | IterEv.yieldE v => some v
    | IterEv.ackE => none

/-- How many `task_done` acknowledgments a trace performs. -/
def ackCount (tr : List (IterEv V)) : Nat :=
  tr.countP fun e => match e with
    | IterEv.ackE => true
    | _ => false

/-! ## The `StoppingWorker.run` loop

```python
def run(self):
    for item in self.in_queue:
        result = self.func(item)
        self.out_queue.put(result)
```

Interleaving the generator above with the loop body: for each payload the
worker pops it, pushes `func(item)` to the output queue, and only then (when
the `for` asks the generator for the next item) acknowledges it on the input
queue; popping the stop marker acknowledges it and ends the thread. -/

/-- Observable events of one worker: popping a payload or the stop marker from
the input queue, pushing an entry to the output queue, and `task_done` on the
input queue. -/
inductive WEv (V : Type) where
  | getPay (v : V)
  | getStop
  | putOut (x : QItem V)
  | ackIn
deriving DecidableEq

/-- The event trace of `StoppingWorker.run` with stage function `f`, on an
input buffer `l` (an empty buffer means the worker blocks in `get`). -/
def workerTrace (f : V → V) : List (QItem V) → List (WEv V)
  | [] => []
  | QItem.stop :: _ => [WEv.getStop, WEv.ackIn]
  | QItem.pay v :: rest =>
      WEv.getPay v :: WEv.putOut (QItem.pay (f v)) :: WEv.ackIn :: workerTrace f rest

/-- Number of `task_done` calls in a worker trace. -/
def ackInCount (tr : List (WEv V)) : Nat :=
  tr.countP fun e => match e with
    | WEv.ackIn => true
    | _ => false

/-- Number of `put` calls in a worker trace. -/
def putCount (tr : List (WEv V)) : Nat :=
  tr.countP fun e => match e with
    | WEv.putOut _ => true
    | _ => false

/-- Number of items popped (payloads and stop markers) in a worker trace. -/
def popCount (tr : List (WEv V)) : Nat :=
  tr.countP fun e => match e with
    | WEv.getPay _ => true
    | WEv.getStop => true
    | _ => false

/-- How the worker loop ends. -/
inductive ROut where
  | finishedR
  | raisedR
  | blockedR
deriving DecidableEq

/-- `StoppingWorker.run` when the stage function may raise (`f v = none`):
the exception propagates out of the `for` body, so the loop is abandoned —
the failing item is popped but no result is pushed, the item is not
acknowledged, and nothing further is consumed by this thread.  Returns the
event trace together with how the thread ended. -/
def workerRunE (f : V → Option V) : List (QItem V) → List (WEv V) × ROut
  | [] => ([], ROut.blockedR)
  | QItem.stop :: _ => ([WEv.getStop, WEv.ackIn], ROut.finishedR)
  | QItem.pay v :: rest =>
      match f v with
      | none => ([WEv.getPay v], ROut.raisedR)
      | some u =>
          let p := workerRunE f rest
          (WEv.getPay v :: WEv.putOut (QItem.pay u) :: WEv.ackIn :: p.1, p.2)

/-! ## The coordinator's call sequence (`main` and `stop_threads`)

```python
def stop_threads(queue, threads):
    for _ in threads:
        queue.close()
    queue.join()
    for thread in threads:
        thread.join()
```

`main` feeds `range(N)` into `todo_queue`, runs `stop_threads` on
`todo_queue`/`token_threads` and then on `token_queue`/`result_threads`,
then calls `results_queue.close()` once and drains `results_queue` by
iterating it (`list(results_queue)`). -/

/-- One call `main` makes, in program order: pushes into `todo_queue`,
closes/joins of each queue, thread joins of each pool, and the final
`list(results_queue)` drain.  (`join2c` — a `join()` on the results queue —
exists as a possible operation but is never emitted by `main`.) -/
inductive COp where
  | put0 (i : Nat)
  | close0
  | joinq0
  | tj1
  | close1c
  | joinq1c
  | tj2
  | close2c
  | join2c
  | drainRes
deriving DecidableEq

/-- `stop_threads(queue, threads)`: one `close` per thread handle, then one
queue `join`, then one thread join per handle. -/
def stop_threads_ops (closeOp joinOp tjOp : COp) (threads : List Nat) : List COp :=
  (threads.map fun _ => closeOp) ++ [joinOp] ++ (threads.map fun _ => tjOp)

/-- The full call sequence of `main`, with `n` source items, `k1` stage-1
workers and `k2` stage-2 workers. -/
def main_ops (n k1 k2 : Nat) : List COp :=
  ((List.range n).map COp.put0)
    ++ stop_threads_ops COp.close0 COp.joinq0 COp.tj1 (List.range k1)
    ++ stop_threads_ops COp.close1c COp.joinq1c COp.tj2 (List.range k2)
    ++ [COp.close2c, COp.drainRes]

/-- `N = 1000` in the source. -/
def srcN : Nat := 1000

/-- `N_TOKEN_THREADS = 10` in the source. -/
def srcTokenThreads : Nat := 10

/-- `N_RESULTS_THREADS = 5` in the source. -/
def srcResultsThreads : Nat := 5

/-! ## The stage functions `get_token` and `get_result`

```python
def get_token(i: int) -> str:
    sleep(random() * MAX_TOKEN_TIME)
    return f"token_{i}"

def get_result(token: str) -> str:
    sleep(random() * MAX_RESULTS_TIME)
    return token.replace("token", "result")
```

The sleeps only simulate latency and do not affect the values.  Strings are
modelled as `List Char`; `str.replace` replaces every non-overlapping
occurrence left to right. -/

/-- The decimal digit character of `d` (for `d < 10`). -/
def digitChar (d : Nat) : Char := Char.ofNat (48 + d)

/-- Decimal digits with an explicit structural recursion bound (so the kernel
can evaluate it); `fuel ≥ n` always suffices. -/
def natCharsAux : Nat → Nat → List Char
  | 0, n => [digitChar n]
  | fuel + 1, n =>
      if n < 10 then [digitChar n]
      else natCharsAux fuel (n / 10) ++ [digitChar (n % 10)]

/-- The decimal digits of a natural number, as `str(n)` produces them. -/
def natChars (n : Nat) : List Char := natCharsAux n n

/-- `str(i)` for a Python int: a minus sign followed by the digits when
negative. -/
def intChars (i : Int) : List Char :=
  if i < 0 then '-' :: natChars i.natAbs else natChars i.toNat

/-- Scanning core of `str.replace`, structurally recursive on a fuel bound
(`fuel ≥ length of the scanned list` always suffices, and each step consumes
at least one character). -/
def replaceLAux (pat rep : List Char) : Nat → List Char → List Char
  | _, [] => []
  | 0, l => l
  | fuel + 1, c :: rest =>
      if !pat.isEmpty && pat.isPrefixOf (c :: rest) then
        rep ++ replaceLAux pat rep fuel (List.drop (pat.length - 1) rest)
      else
        c :: replaceLAux pat rep fuel rest

/-- Python `str.replace(pat, rep)`: scan left to right, replacing each
non-overlapping occurrence of `pat`.  (The empty-pattern corner case never
occurs in this program; the guard makes it the identity.) -/
def replaceL (pat rep : List Char) (s : List Char) : List Char :=
  replaceLAux pat rep s.length s

/-- `get_token(i)` = `f"token_{i}"`. -/
def get_token (i : Int) : List Char := ("token_").data ++ intChars i

/-- `get_result(token)` = `token.replace("token", "result")`. -/
def get_result (s : List Char) : List Char :=
  replaceL (("token").data) (("result").data) s

/-- The expected token string `"token_{i}"`. -/
def tokenChars (i : Int) : List Char := ("token_").data ++ intChars i

/-- The expected result string `"result_{i}"`. -/
def resultChars (i : Int) : List Char := ("result_").data ++ intChars i

/-- Stage 1 as applied to the dynamically typed queue payloads: `main` feeds
ints, and `get_token` turns an int into a str.  (The function is only ever
applied to ints in the program; other payloads are returned unchanged to make
the model total.) -/
def get_token_py : PyVal → PyVal
  | PyVal.int n => PyVal.str (get_token n)
  | v => v

/-- Stage 2 on the dynamically typed queue payloads: `get_result` maps a str
to a str. -/
def get_result_py : PyVal → PyVal
  | PyVal.str s => PyVal.str (get_result s)
  | v => v

/-! ## The concurrent pipeline as a transition system

The coordinator is the straight-line code of `main`:

```python
for i in range(N):
    todo_queue.put(i)
stop_threads(todo_queue, token_threads)    # close × k1 ; join ; thread joins
stop_threads(token_queue, result_threads)  # close × k2 ; join ; thread joins
results_queue.close()
results = list(results_queue)
```

Each worker thread runs the `run` loop above.  Every queue primitive is one
atomic step; steps of different threads interleave arbitrarily. -/

/-- The coordinator's program counter through `main`.  `feeding i` = about to
`put(i)`; `closing1 j` = `j` of the `k1` closes of `todo_queue` done;
`joinQ0` = blocked in `todo_queue.join()`; `joinP1` = blocked joining the
stage-1 threads; likewise for stage 2; `closeQ2` = about to
`results_queue.close()`; `draining` = consuming `list(results_queue)`. -/
inductive CPC where
  | feeding (i : Nat)
  | closing1 (j : Nat)
  | joinQ0
  | joinP1
  | closing2 (j : Nat)
  | joinQ1
  | joinP2
  | closeQ2
  | draining
  | finished
deriving DecidableEq

/-- Where a worker thread is in its `run` loop.  `getting`: blocked in / about
to `get()`.  `hasItem v`: popped the payload `v`, about to push `func v`.
`didPut`: pushed the result, about to `task_done` the input item.  `stopping`:
popped the stop marker, about to `task_done` it.  `done`: thread exited. -/
inductive WPhase (V : Type) where
  | getting
  | hasItem (v : V)
  | didPut
  | stopping
  | done
deriving DecidableEq

/-- `true` while the worker has popped an item it has not yet acknowledged. -/
def WPhase.holding : WPhase V → Bool
  | WPhase.hasItem _ => true
  | WPhase.didPut => true
  | WPhase.stopping => true
  | _ => false

/-- `true` once the worker has popped a stop marker. -/
def WPhase.tookStop : WPhase V → Bool
  | WPhase.stopping => true
  | WPhase.done => true
  | _ => false

/-- The payload a worker currently holds and has not yet pushed downstream. -/
def WPhase.held : WPhase V → List V
  | WPhase.hasItem v => [v]
  | _ => []

/-- All payloads currently held (popped, not yet pushed) by a pool. -/
def heldOf (w : List (WPhase V)) : List V := (w.map WPhase.held).flatten

/-- A run configuration: `N` source items, `k1`/`k2` workers per stage, the
encoding of a source index as a queue payload, and the two stage functions. -/
structure Cfg (V : Type) where
  N : Nat
  k1 : Nat
  k2 : Nat
  src : Nat → V
  f : V → V
  g : V → V

/-- A global state: the three queues, the phases of the two worker pools, the
coordinator's program counter, and the results collected so far by
`list(results_queue)`. -/
structure St (V : Type) where
  q0 : QState V
  q1 : QState V
  q2 : QState V
  w1 : List (WPhase V)
  w2 : List (WPhase V)
  pc : CPC
  collected : List V

/-- The initial state: `start_threads` has started every worker (each blocked
in `get()` on its empty input queue) and `main` is about to feed item `0`. -/
def initSt (cfg : Cfg V) : St V :=
  { q0 := ⟨[], 0⟩
    q1 := ⟨[], 0⟩
    q2 := ⟨[], 0⟩
    w1 := List.replicate cfg.k1 WPhase.getting
    w2 := List.replicate cfg.k2 WPhase.getting
    pc := CPC.feeding 0
    collected := [] }

/-- One atomic step of the whole program.  Coordinator steps (`c…`) follow
`main`; worker steps (`w1…`, `w2…`) are the queue primitives of the `run`
loop, for an arbitrary worker of the pool (singled out as `pre ++ _ :: post`).
Blocking is "no step": `get` needs a nonempty buffer, `join` needs
`unfinished = 0`, a thread join needs every pool thread `done`. -/
inductive Step (cfg : Cfg V) : St V → St V → Prop where
  | cFeed (s : St V) (i : Nat) (hp : s.pc = CPC.feeding i) (h : i < cfg.N) :
      Step cfg s { s with q0 := s.q0.put (QItem.pay (cfg.src i)), pc := CPC.feeding (i + 1) }
  | cFeedDone (s : St V) (hp : s.pc = CPC.feeding cfg.N) :
      Step cfg s { s with pc := CPC.closing1 0 }
  | cClose1 (s : St V) (j : Nat) (hp : s.pc = CPC.closing1 j) (h : j < cfg.k1) :
      Step cfg s { s with q0 := s.q0.put QItem.stop, pc := CPC.closing1 (j + 1) }
  | cClose1Done (s : St V) (hp : s.pc = CPC.closing1 cfg.k1) :
      Step cfg s { s with pc := CPC.joinQ0 }
  | cJoinQ0 (s : St V) (hp : s.pc = CPC.joinQ0) (h : s.q0.unfinished = 0) :
      Step cfg s { s with pc := CPC.joinP1 }
  | cJoinP1 (s : St V) (hp : s.pc = CPC.joinP1) (h : ∀ w ∈ s.w1, w = WPhase.done) :
      Step cfg s { s with pc := CPC.closing2 0 }
  | cClose2 (s : St V) (j : Nat) (hp : s.pc = CPC.closing2 j) (h : j < cfg.k2) :
      Step cfg s { s with q1 := s.q1.put QItem.stop, pc := CPC.closing2 (j + 1) }
  | cClose2Done (s : St V) (hp : s.pc = CPC.closing2 cfg.k2) :
      Step cfg s { s with pc := CPC.joinQ1 }
  | cJoinQ1 (s : St V) (hp : s.pc = CPC.joinQ1) (h : s.q1.unfinished = 0) :
      Step cfg s { s with pc := CPC.joinP2 }
  | cJoinP2 (s : St V) (hp : s.pc = CPC.joinP2) (h : ∀ w ∈ s.w2, w = WPhase.done) :
      Step cfg s { s with pc := CPC.closeQ2 }
  | cCloseQ2 (s : St V) (hp : s.pc = CPC.closeQ2) :
      Step cfg s { s with q2 := s.q2.put QItem.stop, pc := CPC.draining }
  | cDrainPay (s : St V) (v : V) (rest : List (QItem V)) (hp : s.pc = CPC.draining)
      (hb : s.q2.buf = QItem.pay v :: rest) :
      Step cfg s { s with q2 := ⟨rest, s.q2.unfinished - 1⟩, collected := s.collected ++ [v] }
  | cDrainStop (s : St V) (rest : List (QItem V)) (hp : s.pc = CPC.draining)
      (hb : s.q2.buf = QItem.stop :: rest) :
      Step cfg s { s with q2 := ⟨rest, s.q2.unfinished - 1⟩, pc := CPC.finished }
  | w1GetPay (s : St V) (pre post : List (WPhase V)) (v : V) (rest : List (QItem V))
      (hw : s.w1 = pre ++ WPhase.getting :: post) (hb : s.q0.buf = QItem.pay v :: rest) :
      Step cfg s { s with q0 := ⟨rest, s.q0.unfinished⟩, w1 := pre ++ WPhase.hasItem v :: post }
  | w1GetStop (s : St V) (pre post : List (WPhase V)) (rest : List (QItem V))
      (hw : s.w1 = pre ++ WPhase.getting :: post) (hb : s.q0.buf = QItem.stop :: rest) :
      Step cfg s { s with q0 := ⟨rest, s.q0.unfinished⟩, w1 := pre ++ WPhase.stopping :: post }
  | w1Put (s : St V) (pre post : List (WPhase V)) (v : V)
      (hw : s.w1 = pre ++ WPhase.hasItem v :: post) :
      Step cfg s { s with q1 := s.q1.put (QItem.pay (cfg.f v)), w1 := pre ++ WPhase.didPut :: post }
  | w1Ack (s : St V) (pre post : List (WPhase V))
      (hw : s.w1 = pre ++ WPhase.didPut :: post) :
      Step cfg s { s with q0 := s.q0.acked, w1 := pre ++ WPhase.getting :: post }
  | w1AckStop (s : St V) (pre post : List (WPhase V))
      (hw : s.w1 = pre ++ WPhase.stopping :: post) :
      Step cfg s { s with q0 := s.q0.acked, w1 := pre ++ WPhase.done :: post }
  | w2GetPay (s : St V) (pre post : List (WPhase V)) (v : V) (rest : List (QItem V))
      (hw : s.w2 = pre ++ WPhase.getting :: post) (hb : s.q1.buf = QItem.pay v :: rest) :
      Step cfg s { s with q1 := ⟨rest, s.q1.unfinished⟩, w2 := pre ++ WPhase.hasItem v :: post }
  | w2GetStop (s : St V) (pre post : List (WPhase V)) (rest : List (QItem V))
      (hw : s.w2 = pre ++ WPhase.getting :: post) (hb : s.q1.buf = QItem.stop :: rest) :
      Step cfg s { s with q1 := ⟨rest, s.q1.unfinished⟩, w2 := pre ++ WPhase.stopping :: post }
  | w2Put (s : St V) (pre post : List (WPhase V)) (v : V)
      (hw : s.w2 = pre ++ WPhase.hasItem v :: post) :
      Step cfg s { s with q2 := s.q2.put (QItem.pay (cfg.g v)), w2 := pre ++ WPhase.didPut :: post }
  | w2Ack (s : St V) (pre post : List (WPhase V))
      (hw : s.w2 = pre ++ WPhase.didPut :: post) :
      Step cfg s { s with q1 := s.q1.acked, w2 := pre ++ WPhase.getting :: post }
  | w2AckStop (s : St V) (pre post : List (WPhase V))
      (hw : s.w2 = pre ++ WPhase.stopping :: post) :
      Step cfg s { s with q1 := s.q1.acked, w2 := pre ++ WPhase.done :: post }

/-- Reachability from the initial state. -/
def Reach (cfg : Cfg V) (s : St V) : Prop :=
  Relation.ReflTransGen (Step cfg) (initSt cfg) s

/-- A state with no enabled step. -/
def Terminal (cfg : Cfg V) (s : St V) : Prop :=
  ¬ ∃ s', Step cfg s s'

/-- A buffer in which every payload precedes every stop marker.  This is the
shape every queue of the program keeps: each producer set pushes all payloads
before the controller pushes the stop markers. -/
inductive PTS : List (QItem V) → Prop where
  | stops (k : Nat) : PTS (List.replicate k QItem.stop)
  | cons (v : V) (l : List (QItem V)) : PTS l → PTS (QItem.pay v :: l)

/-! ### Bookkeeping functions of the coordinator program counter -/

/-- How many times `main` has called `todo_queue.close()` by point `pc`. -/
def closes0 (cfg : Cfg V) : CPC → Nat
  | CPC.feeding _ => 0
  | CPC.closing1 j => j
  | _ => cfg.k1

/-- How many times `main` has called `token_queue.close()` by point `pc`. -/
def closes1 (cfg : Cfg V) : CPC → Nat
  | CPC.feeding _ => 0
  | CPC.closing1 _ => 0
  | CPC.joinQ0 => 0
  | CPC.joinP1 => 0
  | CPC.closing2 j => j
  | _ => cfg.k2

/-- How many stop markers `results_queue` currently contains (pushed at
`closeQ2`, consumed when the drain finishes). -/
def stops2 : CPC → Nat
  | CPC.draining => 1
  | _ => 0

/-- The source items `main` still has to feed at point `pc`. -/
def toFeed (cfg : Cfg V) : CPC → List Nat
  | CPC.feeding i => List.range' i (cfg.N - i)
  | _ => []

/-- The coordinator has completed `stop_threads(todo_queue, token_threads)`. -/
def past1 : CPC → Bool
  | CPC.closing2 _ => true
  | CPC.joinQ1 => true
  | CPC.joinP2 => true
  | CPC.closeQ2 => true
  | CPC.draining => true
  | CPC.finished => true
  | _ => false

/-- The coordinator has completed `stop_threads(token_queue, result_threads)`. -/
def past2 : CPC → Bool
  | CPC.closeQ2 => true
  | CPC.draining => true
  | CPC.finished => true
  | _ => false

/-- The coordinator has completed `todo_queue.join()`. -/
def pastJ0 : CPC → Bool
  | CPC.joinP1 => true
  | CPC.closing2 _ => true
  | CPC.joinQ1 => true
  | CPC.joinP2 => true
  | CPC.closeQ2 => true
  | CPC.draining => true
  | CPC.finished => true
  | _ => false

/-- The coordinator has completed `token_queue.join()`. -/
def pastJ1 : CPC → Bool
  | CPC.joinP2 => true
  | CPC.closeQ2 => true
  | CPC.draining => true
  | CPC.finished => true
  | _ => false

/-! ### The conservation sequence

Every source item is in exactly one place at any time: still to be fed, in a
queue buffer, in a worker's hands, or already collected.  Mapping each
place through the stage functions it still has to pass, the concatenation
below lists the final result of every item exactly once.  Its multiset is
invariant under every step; with one worker per stage even the list itself is
invariant. -/

/-- Each source item's final value, ordered from "arrived" (collected) to "not
yet started" (still to feed). -/
def outSeq (cfg : Cfg V) (s : St V) : List V :=
  s.collected
    ++ paysOf s.q2.buf
    ++ (heldOf s.w2).map cfg.g
    ++ (paysOf s.q1.buf).map cfg.g
    ++ (heldOf s.w1).map (fun v => cfg.g (cfg.f v))
    ++ (paysOf s.q0.buf).map (fun v => cfg.g (cfg.f v))
    ++ (toFeed cfg s.pc).map (fun i => cfg.g (cfg.f (cfg.src i)))

/-- The multiset of final results of all `N` source items. -/
def allResults (cfg : Cfg V) : List V :=
  (List.range cfg.N).map fun i => cfg.g (cfg.f (cfg.src i))

/-- The global invariant of the pipeline, preserved by every step:
worker-pool sizes, program-counter bounds, the `unfinished_tasks` accounting
of each queue, stop-marker accounting, buffer shapes, the phase/pc
compatibility facts, and item conservation. -/
structure Inv (cfg : Cfg V) (s : St V) : Prop where
  hw1len : s.w1.length = cfg.k1
  hw2len : s.w2.length = cfg.k2
  hfi : ∀ i, s.pc = CPC.feeding i → i ≤ cfg.N
  hc1 : ∀ j, s.pc = CPC.closing1 j → j ≤ cfg.k1
  hc2 : ∀ j, s.pc = CPC.closing2 j → j ≤ cfg.k2
  hu0 : s.q0.unfinished = s.q0.buf.length + s.w1.countP WPhase.holding
  hu1 : s.q1.unfinished = s.q1.buf.length + s.w2.countP WPhase.holding
  hu2 : s.q2.unfinished = s.q2.buf.length
  hs0 : stopsOf s.q0.buf + s.w1.countP WPhase.tookStop = closes0 cfg s.pc
  hs1 : stopsOf s.q1.buf + s.w2.countP WPhase.tookStop = closes1 cfg s.pc
  hs2 : stopsOf s.q2.buf = stops2 s.pc
  hf0 : PTS s.q0.buf
  hf1 : PTS s.q1.buf
  hf2 : PTS s.q2.buf
  hn0 : 0 < s.w1.countP WPhase.tookStop → paysOf s.q0.buf = []
  hn1 : 0 < s.w2.countP WPhase.tookStop → paysOf s.q1.buf = []
  hp1 : past1 s.pc = true → ∀ w ∈ s.w1, w = WPhase.done
  hp2 : past2 s.pc = true → ∀ w ∈ s.w2, w = WPhase.done
  hz0 : pastJ0 s.pc = true → s.q0.unfinished = 0
  hz1 : pastJ1 s.pc = true → s.q1.unfinished = 0
  hfin : s.pc = CPC.finished → s.q2.buf = []
  hcons : (outSeq cfg s : Multiset V) = (allResults cfg : List V)

/-! ### Termination measure

Every payload and stop marker carries the number of atomic steps it still
causes downstream; the coordinator's program counter carries the steps it will
itself take plus the weights of the items it will still push.  Every step of
the system strictly decreases the total. -/

/-- Weight of one buffer entry (payload weight `a`, stop-marker weight `b`). -/
def qItemW (a b : Nat) : QItem V → Nat
  | QItem.pay _ => a
  | QItem.stop => b

/-- Total weight of a buffer. -/
def qWeight (a b : Nat) (l : List (QItem V)) : Nat := (l.map (qItemW a b)).sum

/-- Remaining steps of a stage-1 worker for the item it currently processes. -/
def wWt1 : WPhase V → Nat
  | WPhase.getting => 0
  | WPhase.hasItem _ => 6
  | WPhase.didPut => 1
  | WPhase.stopping => 1
  | WPhase.done => 0

/-- Remaining steps of a stage-2 worker for the item it currently processes. -/
def wWt2 : WPhase V → Nat
  | WPhase.getting => 0
  | WPhase.hasItem _ => 3
  | WPhase.didPut => 1
  | WPhase.stopping => 1
  | WPhase.done => 0

/-- Remaining coordinator steps (and weights of items still to be pushed). -/
def cpcW (cfg : Cfg V) : CPC → Nat
  | CPC.feeding i => 8 * (cfg.N - i) + 3 * cfg.k1 + 3 * cfg.k2 + 9
  | CPC.closing1 j => 3 * (cfg.k1 - j) + 3 * cfg.k2 + 8
  | CPC.joinQ0 => 3 * cfg.k2 + 7
  | CPC.joinP1 => 3 * cfg.k2 + 6
  | CPC.closing2 j => 3 * (cfg.k2 - j) + 5
  | CPC.joinQ1 => 4
  | CPC.joinP2 => 3
  | CPC.closeQ2 => 2
  | CPC.draining => 0
  | CPC.finished => 0

/-- The global termination measure. -/
def measureSt (cfg : Cfg V) (s : St V) : Nat :=
  cpcW cfg s.pc + qWeight 7 2 s.q0.buf + qWeight 4 2 s.q1.buf + qWeight 1 1 s.q2.buf
    + (s.w1.map wWt1).sum + (s.w2.map wWt2).sum

/-! ### The concrete run of `main` (types and stage functions of the source) -/

/-- The configuration `main` builds, with `n` items and one worker per stage:
payloads are Python values, the coordinator feeds the ints `0..n-1`, stage 1
runs `get_token` and stage 2 runs `get_result`. -/
def mainCfg (n : Nat) : Cfg PyVal :=
  { N := n
    k1 := 1
    k2 := 1
    src := fun i => PyVal.int (Int.ofNat i)
    f := get_token_py
    g := get_result_py }

/-- The state of the `n = 0` run just after `stop_threads` on the first pool
has returned (`main` is about to close the token queue). -/
def sMid0 : St PyVal :=
  { q0 := ⟨[], 0⟩
    q1 := ⟨[], 0⟩
    q2 := ⟨[], 0⟩
    w1 := [WPhase.done]
    w2 := [WPhase.getting]
    pc := CPC.closing2 0
    collected := [] }

/-- The final state of the `n = 0` run. -/
def sFin0 : St PyVal :=
  { q0 := ⟨[], 0⟩
    q1 := ⟨[], 0⟩
    q2 := ⟨[], 0⟩
    w1 := [WPhase.done]
    w2 := [WPhase.done]
    pc := CPC.finished
    collected := [] }

/-! ## Theorems -/

@[simp] theorem heldOf_nil : heldOf ([] : List (WPhase V)) = [] := rfl

@[simp] theorem heldOf_cons (p : WPhase V) (w : List (WPhase V)) :
    heldOf (p :: w) = p.held ++ heldOf w := by
  simp [heldOf]

@[simp] theorem heldOf_append (w₁ w₂ : List (WPhase V)) :
    heldOf (w₁ ++ w₂) = heldOf w₁ ++ heldOf w₂ := by
  simp [heldOf]

@[simp] theorem qWeight_nil (a b : Nat) : qWeight a b ([] : List (QItem V)) = 0 := rfl

@[simp] theorem qWeight_cons (a b : Nat) (x : QItem V) (l : List (QItem V)) :
    qWeight a b (x :: l) = qItemW a b x + qWeight a b l := by
  simp [qWeight]

@[simp] theorem qWeight_append (a b : Nat) (l₁ l₂ : List (QItem V)) :
    qWeight a b (l₁ ++ l₂) = qWeight a b l₁ + qWeight a b l₂ := by
  simp [qWeight]

/-! ### Helper lemmas on buffers and pools -/

@[simp] theorem paysOf_nil : paysOf ([] : List (QItem V)) = [] := rfl

@[simp] theorem paysOf_cons_pay (v : V) (l : List (QItem V)) :
    paysOf (QItem.pay v :: l) = v :: paysOf l := rfl

@[simp] theorem paysOf_cons_stop (l : List (QItem V)) :
    paysOf (QItem.stop :: l) = paysOf l := rfl

@[simp] theorem paysOf_append (l₁ l₂ : List (QItem V)) :
    paysOf (l₁ ++ l₂) = paysOf l₁ ++ paysOf l₂ := by
  simp [paysOf, List.filterMap_append]

@[simp] theorem stopsOf_nil : stopsOf ([] : List (QItem V)) = 0 := rfl

@[simp] theorem stopsOf_cons_pay (v : V) (l : List (QItem V)) :
    stopsOf (QItem.pay v :: l) = stopsOf l := by
  simp [stopsOf, List.countP_cons, QItem.isStop]

@[simp] theorem stopsOf_cons_stop (l : List (QItem V)) :
    stopsOf (QItem.stop :: l) = stopsOf l + 1 := by
  simp [stopsOf, List.countP_cons, QItem.isStop]

@[simp] theorem stopsOf_append (l₁ l₂ : List (QItem V)) :
    stopsOf (l₁ ++ l₂) = stopsOf l₁ + stopsOf l₂ := by
  simp [stopsOf, List.countP_append]

@[simp] theorem paysOf_replicate_stop (k : Nat) :
    paysOf (List.replicate k (QItem.stop : QItem V)) = [] := by
  induction k with
  | zero => rfl
  | succ n ih => simp [List.replicate_succ, ih]

@[simp] theorem stopsOf_replicate_stop (k : Nat) :
    stopsOf (List.replicate k (QItem.stop : QItem V)) = k := by
  induction k with
  | zero => rfl
  | succ n ih => simp [List.replicate_succ, ih]

/-- Every buffer entry is a payload or a stop marker. -/
theorem length_eq_pays_add_stops (l : List (QItem V)) :
    l.length = (paysOf l).length + stopsOf l := by
  induction l with
  | nil => rfl
  | cons x rest ih => cases x <;> simp [ih] <;> omega

theorem PTS.nil : PTS ([] : List (QItem V)) := PTS.stops 0

theorem PTS.append_stop {l : List (QItem V)} (h : PTS l) :
    PTS (l ++ [(QItem.stop : QItem V)]) := by
  induction h with
  | stops k =>
      have hrep : List.replicate k (QItem.stop : QItem V) ++ [QItem.stop] =
          List.replicate (k + 1) QItem.stop := by
        simp [List.replicate_succ']
      rw [hrep]
      exact PTS.stops (k + 1)
  | cons v l _hl ih => exact PTS.cons v _ ih

theorem PTS.append_pay {l : List (QItem V)} {v : V} (h : PTS l) (hs : stopsOf l = 0) :
    PTS (l ++ [QItem.pay v]) := by
  induction h with
  | stops k =>
      have hk : k = 0 := by simpa using hs
      subst hk
      simpa using PTS.cons v [] PTS.nil
  | cons w l hl ih =>
      exact PTS.cons w _ (ih (by simpa using hs))

theorem PTS.tail_of_eq {m l : List (QItem V)} {x : QItem V} (h : PTS m) (he : m = x :: l) :
    PTS l := by
  induction h generalizing x l with
  | stops k =>
      cases k with
      | zero => simp at he
      | succ n =>
          rw [List.replicate_succ] at he
          injection he with h1 h2
          rw [← h2]
          exact PTS.stops n
  | cons v m hm _ih =>
      injection he with h1 h2
      rw [← h2]
      exact hm

theorem PTS.tail {l : List (QItem V)} {x : QItem V} (h : PTS (x :: l)) : PTS l :=
  h.tail_of_eq rfl

/-- A buffer of this shape whose front is a stop marker is stop markers only. -/
theorem PTS.rep_of_eq {m l : List (QItem V)} (h : PTS m) (he : m = QItem.stop :: l) :
    l = List.replicate (stopsOf l) (QItem.stop : QItem V) := by
  induction h generalizing l with
  | stops k =>
      cases k with
      | zero => simp at he
      | succ n =>
          rw [List.replicate_succ] at he
          injection he with h1 h2
          rw [← h2]
          simp
  | cons v m _hm _ih => simp at he

/-- Front stop marker means no payloads at all. -/
theorem PTS.pays_nil_of_stop_head {l : List (QItem V)} (h : PTS ((QItem.stop : QItem V) :: l)) :
    paysOf l = [] := by
  have hrep := h.rep_of_eq rfl
  rw [hrep]
  simp

/-- `countP` on a constant list. -/
theorem countP_replicate (p : α → Bool) (a : α) (n : Nat) :
    (List.replicate n a).countP p = if p a then n else 0 := by
  induction n with
  | zero => simp
  | succ m ih => by_cases h : p a <;> simp [List.replicate_succ, List.countP_cons, ih, h]

theorem past1_of_closes1_pos (cfg : Cfg V) (pc : CPC) (h : 0 < closes1 cfg pc) :
    past1 pc = true := by
  cases pc <;> simp [closes1, past1] at *

theorem past1_of_pastJ1 (pc : CPC) (h : pastJ1 pc = true) : past1 pc = true := by
  cases pc <;> simp [pastJ1, past1] at *

theorem stops2_eq_zero {pc : CPC} (h : pc ≠ CPC.draining) : stops2 pc = 0 := by
  cases pc <;> first | rfl | exact absurd rfl h

/-- The initial state satisfies the invariant. -/
theorem inv_init (cfg : Cfg V) : Inv cfg (initSt cfg) := by
  refine ⟨?_, ?_, ?_, ?_, ?_, ?_, ?_, ?_, ?_, ?_, ?_, ?_, ?_, ?_, ?_, ?_, ?_, ?_, ?_, ?_, ?_, ?_⟩
  all_goals simp [initSt, outSeq, allResults, toFeed, closes0, closes1, stops2, past1, past2,
    pastJ0, pastJ1, heldOf, WPhase.held, WPhase.holding, WPhase.tookStop, PTS.nil,
    countP_replicate, List.range_eq_range']

theorem countP_mid_true (p : α → Bool) (pre post : List α) (x : α) (hx : p x = true) :
    (pre ++ x :: post).countP p = pre.countP p + post.countP p + 1 := by
  simp [List.countP_append, List.countP_cons, hx]
  omega

theorem countP_mid_false (p : α → Bool) (pre post : List α) (x : α) (hx : p x = false) :
    (pre ++ x :: post).countP p = pre.countP p + post.countP p := by
  simp [List.countP_append, List.countP_cons, hx]

/-- Every step preserves the invariant. -/
theorem inv_step {cfg : Cfg V} {s s' : St V} (hI : Inv cfg s) (hst : Step cfg s s') :
    Inv cfg s' := by
  obtain ⟨hw1len, hw2len, hfi, hc1, hc2, hu0, hu1, hu2, hs0, hs1, hs2, hf0, hf1, hf2,
    hn0, hn1, hp1, hp2, hz0, hz1, hfin, hcons⟩ := hI
  cases hst with
  | cFeed i hp h =>
      rw [hp] at hs0 hs1 hs2
      simp only [closes0, closes1, stops2] at hs0 hs1 hs2
      refine {
          hw1len := hw1len
          hw2len := hw2len
          hfi := ?hfi
          hc1 := ?hc1
          hc2 := ?hc2
          hu0 := ?hu0
          hu1 := hu1
          hu2 := hu2
          hs0 := ?hs0
          hs1 := ?hs1
          hs2 := ?hs2
          hf0 := ?hf0
          hf1 := hf1
          hf2 := hf2
          hn0 := ?hn0
          hn1 := hn1
          hp1 := ?hp1
          hp2 := ?hp2
          hz0 := ?hz0
          hz1 := ?hz1
          hfin := ?hfin
          hcons := ?hcons
        }
      case hfi =>
        intro i' hi; injection hi with hh; omega
      case hc1 =>
        intro j hj; exact absurd hj (by simp)
      case hc2 =>
        intro j hj; exact absurd hj (by simp)
      case hu0 =>
        simp [QState.put, hu0] <;> omega
      case hs0 =>
        dsimp only [QState.put]
        simp only [stopsOf_append, stopsOf_cons_pay, stopsOf_nil, closes0]
        omega
      case hs1 =>
        simpa [QState.put, closes1] using hs1
      case hs2 =>
        simpa [QState.put, stops2] using hs2
      case hf0 =>
        exact PTS.append_pay hf0 (by omega)
      case hn0 =>
        intro h'
        exfalso
        have h2 : 0 < List.countP WPhase.tookStop s.w1 := h'
        omega
      case hp1 =>
        intro hq; simp [past1] at hq
      case hp2 =>
        intro hq; simp [past2] at hq
      case hz0 =>
        intro hq; simp [pastJ0] at hq
      case hz1 =>
        intro hq; simp [pastJ1] at hq
      case hfin =>
        intro hq; simp at hq
      case hcons =>
        refine Eq.trans ?_ hcons
        have htf : cfg.N - i = (cfg.N - (i + 1)) + 1 := by omega
        simp [outSeq, hp, QState.put, toFeed, htf, List.range'_succ]
        repeat' first
          | exact List.perm_middle.symm
          | exact List.perm_middle
          | apply List.Perm.append_left
  | cFeedDone hp =>
      rw [hp] at hs0 hs1 hs2
      refine {
          hw1len := hw1len
          hw2len := hw2len
          hfi := ?hfi
          hc1 := ?hc1
          hc2 := ?hc2
          hu0 := hu0
          hu1 := hu1
          hu2 := hu2
          hs0 := ?hs0
          hs1 := ?hs1
          hs2 := ?hs2
          hf0 := hf0
          hf1 := hf1
          hf2 := hf2
          hn0 := hn0
          hn1 := hn1
          hp1 := ?hp1
          hp2 := ?hp2
          hz0 := ?hz0
          hz1 := ?hz1
          hfin := ?hfin
          hcons := ?hcons
        }
      case hfi =>
        intro i hi; exact absurd hi (by simp)
      case hc1 =>
        intro j hj; injection hj with hh; omega
      case hc2 =>
        intro j hj; exact absurd hj (by simp)
      case hs0 =>
        simpa [closes0] using hs0
      case hs1 =>
        simpa [closes1] using hs1
      case hs2 =>
        simpa [stops2] using hs2
      case hp1 =>
        intro hq; simp [past1] at hq
      case hp2 =>
        intro hq; simp [past2] at hq
      case hz0 =>
        intro hq; simp [pastJ0] at hq
      case hz1 =>
        intro hq; simp [pastJ1] at hq
      case hfin =>
        intro hq; simp at hq
      case hcons =>
        refine Eq.trans ?_ hcons
        simp [outSeq, hp, toFeed]
  | cClose1 j hp h =>
      rw [hp] at hs0 hs1 hs2
      simp only [closes0, closes1, stops2] at hs0 hs1 hs2
      refine {
          hw1len := hw1len
          hw2len := hw2len
          hfi := ?hfi
          hc1 := ?hc1
          hc2 := ?hc2
          hu0 := ?hu0
          hu1 := hu1
          hu2 := hu2
          hs0 := ?hs0
          hs1 := ?hs1
          hs2 := ?hs2
          hf0 := ?hf0
          hf1 := hf1
          hf2 := hf2
          hn0 := ?hn0
          hn1 := hn1
          hp1 := ?hp1
          hp2 := ?hp2
          hz0 := ?hz0
          hz1 := ?hz1
          hfin := ?hfin
          hcons := ?hcons
        }
      case hfi =>
        intro i hi; exact absurd hi (by simp)
      case hc1 =>
        intro j' hj; injection hj with hh; omega
      case hc2 =>
        intro j' hj; exact absurd hj (by simp)
      case hu0 =>
        simp [QState.put, hu0] <;> omega
      case hs0 =>
        simp [QState.put, closes0] <;> omega
      case hs1 =>
        simpa [QState.put, closes1] using hs1
      case hs2 =>
        simpa [QState.put, stops2] using hs2
      case hf0 =>
        exact PTS.append_stop hf0
      case hn0 =>
        intro h'; simpa [QState.put] using hn0 h'
      case hp1 =>
        intro hq; simp [past1] at hq
      case hp2 =>
        intro hq; simp [past2] at hq
      case hz0 =>
        intro hq; simp [pastJ0] at hq
      case hz1 =>
        intro hq; simp [pastJ1] at hq
      case hfin =>
        intro hq; simp at hq
      case hcons =>
        refine Eq.trans ?_ hcons
        simp [outSeq, hp, QState.put, toFeed]
  | cClose1Done hp =>
      rw [hp] at hs0 hs1 hs2
      refine {
          hw1len := hw1len
          hw2len := hw2len
          hfi := ?hfi
          hc1 := ?hc1
          hc2 := ?hc2
          hu0 := hu0
          hu1 := hu1
          hu2 := hu2
          hs0 := ?hs0
          hs1 := ?hs1
          hs2 := ?hs2
          hf0 := hf0
          hf1 := hf1
          hf2 := hf2
          hn0 := hn0
          hn1 := hn1
          hp1 := ?hp1
          hp2 := ?hp2
          hz0 := ?hz0
          hz1 := ?hz1
          hfin := ?hfin
          hcons := ?hcons
        }
      case hfi =>
        intro i hi; exact absurd hi (by simp)
      case hc1 =>
        intro j hj; exact absurd hj (by simp)
      case hc2 =>
        intro j hj; exact absurd hj (by simp)
      case hs0 =>
        simpa [closes0] using hs0
      case hs1 =>
        simpa [closes1] using hs1
      case hs2 =>
        simpa [stops2] using hs2
      case hp1 =>
        intro hq; simp [past1] at hq
      case hp2 =>
        intro hq; simp [past2] at hq
      case hz0 =>
        intro hq; simp [pastJ0] at hq
      case hz1 =>
        intro hq; simp [pastJ1] at hq
      case hfin =>
        intro hq; simp at hq
      case hcons =>
        refine Eq.trans ?_ hcons
        simp [outSeq, hp, toFeed]
  | cJoinQ0 hp h =>
      rw [hp] at hs0 hs1 hs2
      refine {
          hw1len := hw1len
          hw2len := hw2len
          hfi := ?hfi
          hc1 := ?hc1
          hc2 := ?hc2
          hu0 := hu0
          hu1 := hu1
          hu2 := hu2
          hs0 := ?hs0
          hs1 := ?hs1
          hs2 := ?hs2
          hf0 := hf0
          hf1 := hf1
          hf2 := hf2
          hn0 := hn0
          hn1 := hn1
          hp1 := ?hp1
          hp2 := ?hp2
          hz0 := ?hz0
          hz1 := ?hz1
          hfin := ?hfin
          hcons := ?hcons
        }
      case hfi =>
        intro i hi; exact absurd hi (by simp)
      case hc1 =>
        intro j hj; exact absurd hj (by simp)
      case hc2 =>
        intro j hj; exact absurd hj (by simp)
      case hs0 =>
        simpa [closes0] using hs0
      case hs1 =>
        simpa [closes1] using hs1
      case hs2 =>
        simpa [stops2] using hs2
      case hp1 =>
        intro hq; simp [past1] at hq
      case hp2 =>
        intro hq; simp [past2] at hq
      case hz0 =>
        intro _; exact h
      case hz1 =>
        intro hq; simp [pastJ1] at hq
      case hfin =>
        intro hq; simp at hq
      case hcons =>
        refine Eq.trans ?_ hcons
        simp [outSeq, hp, toFeed]
  | cJoinP1 hp h =>
      rw [hp] at hs0 hs1 hs2 hz0
      refine {
          hw1len := hw1len
          hw2len := hw2len
          hfi := ?hfi
          hc1 := ?hc1
          hc2 := ?hc2
          hu0 := hu0
          hu1 := hu1
          hu2 := hu2
          hs0 := ?hs0
          hs1 := ?hs1
          hs2 := ?hs2
          hf0 := hf0
          hf1 := hf1
          hf2 := hf2
          hn0 := hn0
          hn1 := hn1
          hp1 := ?hp1
          hp2 := ?hp2
          hz0 := ?hz0
          hz1 := ?hz1
          hfin := ?hfin
          hcons := ?hcons
        }
      case hfi =>
        intro i hi; exact absurd hi (by simp)
      case hc1 =>
        intro j hj; exact absurd hj (by simp)
      case hc2 =>
        intro j hj; injection hj with hh; omega
      case hs0 =>
        simpa [closes0] using hs0
      case hs1 =>
        simpa [closes1] using hs1
      case hs2 =>
        simpa [stops2] using hs2
      case hp1 =>
        intro _; exact h
      case hp2 =>
        intro hq; simp [past2] at hq
      case hz0 =>
        intro _; exact hz0 rfl
      case hz1 =>
        intro hq; simp [pastJ1] at hq
      case hfin =>
        intro hq; simp at hq
      case hcons =>
        refine Eq.trans ?_ hcons
        simp [outSeq, hp, toFeed]
  | cClose2 j hp h =>
      rw [hp] at hs0 hs1 hs2 hp1 hz0
      simp only [closes0, closes1, stops2] at hs0 hs1 hs2
      refine {
          hw1len := hw1len
          hw2len := hw2len
          hfi := ?hfi
          hc1 := ?hc1
          hc2 := ?hc2
          hu0 := hu0
          hu1 := ?hu1
          hu2 := hu2
          hs0 := ?hs0
          hs1 := ?hs1
          hs2 := ?hs2
          hf0 := hf0
          hf1 := ?hf1
          hf2 := hf2
          hn0 := hn0
          hn1 := ?hn1
          hp1 := ?hp1
          hp2 := ?hp2
          hz0 := ?hz0
          hz1 := ?hz1
          hfin := ?hfin
          hcons := ?hcons
        }
      case hfi =>
        intro i hi; exact absurd hi (by simp)
      case hc1 =>
        intro j' hj; exact absurd hj (by simp)
      case hc2 =>
        intro j' hj; injection hj with hh; omega
      case hu1 =>
        simp [QState.put, hu1] <;> omega
      case hs0 =>
        simpa [QState.put, closes0] using hs0
      case hs1 =>
        simp [QState.put, closes1] <;> omega
      case hs2 =>
        simpa [QState.put, stops2] using hs2
      case hf1 =>
        exact PTS.append_stop hf1
      case hn1 =>
        intro h'; simpa [QState.put] using hn1 h'
      case hp1 =>
        intro _; exact hp1 rfl
      case hp2 =>
        intro hq; simp [past2] at hq
      case hz0 =>
        intro _; exact hz0 rfl
      case hz1 =>
        intro hq; simp [pastJ1] at hq
      case hfin =>
        intro hq; simp at hq
      case hcons =>
        refine Eq.trans ?_ hcons
        simp [outSeq, hp, QState.put, toFeed]
  | cClose2Done hp =>
      rw [hp] at hs0 hs1 hs2 hp1 hz0
      refine {
          hw1len := hw1len
          hw2len := hw2len
          hfi := ?hfi
          hc1 := ?hc1
          hc2 := ?hc2
          hu0 := hu0
          hu1 := hu1
          hu2 := hu2
          hs0 := ?hs0
          hs1 := ?hs1
          hs2 := ?hs2
          hf0 := hf0
          hf1 := hf1
          hf2 := hf2
          hn0 := hn0
          hn1 := hn1
          hp1 := ?hp1
          hp2 := ?hp2
          hz0 := ?hz0
          hz1 := ?hz1
          hfin := ?hfin
          hcons := ?hcons
        }
      case hfi =>
        intro i hi; exact absurd hi (by simp)
      case hc1 =>
        intro j hj; exact absurd hj (by simp)
      case hc2 =>
        intro j hj; exact absurd hj (by simp)
      case hs0 =>
        simpa [closes0] using hs0
      case hs1 =>
        simpa [closes1] using hs1
      case hs2 =>
        simpa [stops2] using hs2
      case hp1 =>
        intro _; exact hp1 rfl
      case hp2 =>
        intro hq; simp [past2] at hq
      case hz0 =>
        intro _; exact hz0 rfl
      case hz1 =>
        intro hq; simp [pastJ1] at hq
      case hfin =>
        intro hq; simp at hq
      case hcons =>
        refine Eq.trans ?_ hcons
        simp [outSeq, hp, toFeed]
  | cJoinQ1 hp h =>
      rw [hp] at hs0 hs1 hs2 hp1 hz0
      refine {
          hw1len := hw1len
          hw2len := hw2len
          hfi := ?hfi
          hc1 := ?hc1
          hc2 := ?hc2
          hu0 := hu0
          hu1 := hu1
          hu2 := hu2
          hs0 := ?hs0
          hs1 := ?hs1
          hs2 := ?hs2
          hf0 := hf0
          hf1 := hf1
          hf2 := hf2
          hn0 := hn0
          hn1 := hn1
          hp1 := ?hp1
          hp2 := ?hp2
          hz0 := ?hz0
          hz1 := ?hz1
          hfin := ?hfin
          hcons := ?hcons
        }
      case hfi =>
        intro i hi; exact absurd hi (by simp)
      case hc1 =>
        intro j hj; exact absurd hj (by simp)
      case hc2 =>
        intro j hj; exact absurd hj (by simp)
      case hs0 =>
        simpa [closes0] using hs0
      case hs1 =>
        simpa [closes1] using hs1
      case hs2 =>
        simpa [stops2] using hs2
      case hp1 =>
        intro _; exact hp1 rfl
      case hp2 =>
        intro hq; simp [past2] at hq
      case hz0 =>
        intro _; exact hz0 rfl
      case hz1 =>
        intro _; exact h
      case hfin =>
        intro hq; simp at hq
      case hcons =>
        refine Eq.trans ?_ hcons
        simp [outSeq, hp, toFeed]
  | cJoinP2 hp h =>
      rw [hp] at hs0 hs1 hs2 hp1 hz0 hz1
      refine {
          hw1len := hw1len
          hw2len := hw2len
          hfi := ?hfi
          hc1 := ?hc1
          hc2 := ?hc2
          hu0 := hu0
          hu1 := hu1
          hu2 := hu2
          hs0 := ?hs0
          hs1 := ?hs1
          hs2 := ?hs2
          hf0 := hf0
          hf1 := hf1
          hf2 := hf2
          hn0 := hn0
          hn1 := hn1
          hp1 := ?hp1
          hp2 := ?hp2
          hz0 := ?hz0
          hz1 := ?hz1
          hfin := ?hfin
          hcons := ?hcons
        }
      case hfi =>
        intro i hi; exact absurd hi (by simp)
      case hc1 =>
        intro j hj; exact absurd hj (by simp)
      case hc2 =>
        intro j hj; exact absurd hj (by simp)
      case hs0 =>
        simpa [closes0] using hs0
      case hs1 =>
        simpa [closes1] using hs1
      case hs2 =>
        simpa [stops2] using hs2
      case hp1 =>
        intro _; exact hp1 rfl
      case hp2 =>
        intro _; exact h
      case hz0 =>
        intro _; exact hz0 rfl
      case hz1 =>
        intro _; exact hz1 rfl
      case hfin =>
        intro hq; simp at hq
      case hcons =>
        refine Eq.trans ?_ hcons
        simp [outSeq, hp, toFeed]
  | cCloseQ2 hp =>
      rw [hp] at hs0 hs1 hs2 hp1 hp2 hz0 hz1
      simp only [closes0, closes1, stops2] at hs0 hs1 hs2
      refine {
          hw1len := hw1len
          hw2len := hw2len
          hfi := ?hfi
          hc1 := ?hc1
          hc2 := ?hc2
          hu0 := hu0
          hu1 := hu1
          hu2 := ?hu2
          hs0 := ?hs0
          hs1 := ?hs1
          hs2 := ?hs2
          hf0 := hf0
          hf1 := hf1
          hf2 := ?hf2
          hn0 := hn0
          hn1 := hn1
          hp1 := ?hp1
          hp2 := ?hp2
          hz0 := ?hz0
          hz1 := ?hz1
          hfin := ?hfin
          hcons := ?hcons
        }
      case hfi =>
        intro i hi; exact absurd hi (by simp)
      case hc1 =>
        intro j hj; exact absurd hj (by simp)
      case hc2 =>
        intro j hj; exact absurd hj (by simp)
      case hu2 =>
        simp [QState.put, hu2]
      case hs0 =>
        simpa [QState.put, closes0] using hs0
      case hs1 =>
        simpa [QState.put, closes1] using hs1
      case hs2 =>
        simp [QState.put, stops2] <;> omega
      case hf2 =>
        exact PTS.append_stop hf2
      case hp1 =>
        intro _; exact hp1 rfl
      case hp2 =>
        intro _; exact hp2 rfl
      case hz0 =>
        intro _; exact hz0 rfl
      case hz1 =>
        intro _; exact hz1 rfl
      case hfin =>
        intro hq; simp at hq
      case hcons =>
        refine Eq.trans ?_ hcons
        simp [outSeq, hp, QState.put, toFeed]
  | cDrainPay v rest hp hb =>
      refine {
          hw1len := hw1len
          hw2len := hw2len
          hfi := hfi
          hc1 := hc1
          hc2 := hc2
          hu0 := hu0
          hu1 := hu1
          hu2 := ?hu2
          hs0 := hs0
          hs1 := hs1
          hs2 := ?hs2
          hf0 := hf0
          hf1 := hf1
          hf2 := ?hf2
          hn0 := hn0
          hn1 := hn1
          hp1 := hp1
          hp2 := hp2
          hz0 := hz0
          hz1 := hz1
          hfin := ?hfin
          hcons := ?hcons
        }
      case hu2 =>
        rw [hb] at hu2; simp at hu2; simp; omega
      case hs2 =>
        rw [hb] at hs2; simpa using hs2
      case hf2 =>
        rw [hb] at hf2; exact hf2.tail
      case hfin =>
        intro hq; exact absurd (hp.symm.trans hq) (by simp)
      case hcons =>
        refine Eq.trans ?_ hcons
        simp [outSeq, hb]
        repeat' first
          | exact List.perm_middle.symm
          | exact List.perm_middle
          | apply List.Perm.append_left
  | cDrainStop rest hp hb =>
      rw [hp] at hs0 hs1 hs2 hp1 hp2 hz0 hz1
      rw [hb] at hs2 hf2
      simp only [stops2, stopsOf_cons_stop] at hs2
      refine {
          hw1len := hw1len
          hw2len := hw2len
          hfi := ?hfi
          hc1 := ?hc1
          hc2 := ?hc2
          hu0 := hu0
          hu1 := hu1
          hu2 := ?hu2
          hs0 := ?hs0
          hs1 := ?hs1
          hs2 := ?hs2
          hf0 := hf0
          hf1 := hf1
          hf2 := ?hf2
          hn0 := hn0
          hn1 := hn1
          hp1 := ?hp1
          hp2 := ?hp2
          hz0 := ?hz0
          hz1 := ?hz1
          hfin := ?hfin
          hcons := ?hcons
        }
      case hfi =>
        intro i hi; exact absurd hi (by simp)
      case hc1 =>
        intro j hj; exact absurd hj (by simp)
      case hc2 =>
        intro j hj; exact absurd hj (by simp)
      case hu2 =>
        rw [hb] at hu2; simp at hu2; simp; omega
      case hs0 =>
        simpa [closes0] using hs0
      case hs1 =>
        simpa [closes1] using hs1
      case hs2 =>
        simp [stops2]; omega
      case hf2 =>
        exact hf2.tail
      case hp1 =>
        intro _; exact hp1 rfl
      case hp2 =>
        intro _; exact hp2 rfl
      case hz0 =>
        intro _; exact hz0 rfl
      case hz1 =>
        intro _; exact hz1 rfl
      case hfin =>
        intro _
        have hr := hf2.rep_of_eq rfl
        have h0 : stopsOf rest = 0 := by omega
        rw [h0] at hr
        simpa using hr
      case hcons =>
        refine Eq.trans ?_ hcons
        simp [outSeq, hp, toFeed, hb]
  | w1GetPay pre post v rest hw hb =>
      refine {
          hw1len := ?hw1len
          hw2len := hw2len
          hfi := hfi
          hc1 := hc1
          hc2 := hc2
          hu0 := ?hu0
          hu1 := hu1
          hu2 := hu2
          hs0 := ?hs0
          hs1 := hs1
          hs2 := hs2
          hf0 := ?hf0
          hf1 := hf1
          hf2 := hf2
          hn0 := ?hn0
          hn1 := hn1
          hp1 := ?hp1
          hp2 := hp2
          hz0 := hz0
          hz1 := hz1
          hfin := hfin
          hcons := ?hcons
        }
      case hw1len =>
        rw [hw] at hw1len
        simp only [List.length_append, List.length_cons] at hw1len ⊢
        omega
      case hu0 =>
        dsimp only
        rw [hw, hb, countP_mid_false WPhase.holding pre post WPhase.getting rfl] at hu0
        simp only [List.length_cons] at hu0
        rw [countP_mid_true WPhase.holding pre post (WPhase.hasItem v) rfl]
        omega
      case hs0 =>
        dsimp only
        rw [hw, hb, countP_mid_false WPhase.tookStop pre post WPhase.getting rfl] at hs0
        simp only [stopsOf_cons_pay] at hs0
        rw [countP_mid_false WPhase.tookStop pre post (WPhase.hasItem v) rfl]
        omega
      case hf0 =>
        rw [hb] at hf0; exact hf0.tail
      case hn0 =>
        dsimp only
        intro h'
        exfalso
        rw [countP_mid_false WPhase.tookStop pre post (WPhase.hasItem v) rfl] at h'
        rw [hw, hb, countP_mid_false WPhase.tookStop pre post WPhase.getting rfl] at hn0
        have hpn := hn0 (by omega)
        simp at hpn
      case hp1 =>
        intro hq
        exfalso
        have hgd := hp1 hq WPhase.getting (by rw [hw]; simp)
        exact WPhase.noConfusion hgd
      case hcons =>
        refine Eq.trans ?_ hcons
        simp [outSeq, hw, hb, WPhase.held]
        repeat' first
          | exact List.perm_middle.symm
          | exact List.perm_middle
          | apply List.Perm.append_left
  | w1GetStop pre post rest hw hb =>
      refine {
          hw1len := ?hw1len
          hw2len := hw2len
          hfi := hfi
          hc1 := hc1
          hc2 := hc2
          hu0 := ?hu0
          hu1 := hu1
          hu2 := hu2
          hs0 := ?hs0
          hs1 := hs1
          hs2 := hs2
          hf0 := ?hf0
          hf1 := hf1
          hf2 := hf2
          hn0 := ?hn0
          hn1 := hn1
          hp1 := ?hp1
          hp2 := hp2
          hz0 := hz0
          hz1 := hz1
          hfin := hfin
          hcons := ?hcons
        }
      case hw1len =>
        rw [hw] at hw1len
        simp only [List.length_append, List.length_cons] at hw1len ⊢
        omega
      case hu0 =>
        dsimp only
        rw [hw, hb, countP_mid_false WPhase.holding pre post WPhase.getting rfl] at hu0
        simp only [List.length_cons] at hu0
        rw [countP_mid_true WPhase.holding pre post WPhase.stopping rfl]
        omega
      case hs0 =>
        dsimp only
        rw [hw, hb, countP_mid_false WPhase.tookStop pre post WPhase.getting rfl] at hs0
        simp only [stopsOf_cons_stop] at hs0
        rw [countP_mid_true WPhase.tookStop pre post WPhase.stopping rfl]
        omega
      case hf0 =>
        rw [hb] at hf0; exact hf0.tail
      case hn0 =>
        intro _
        rw [hb] at hf0
        exact hf0.pays_nil_of_stop_head
      case hp1 =>
        intro hq
        exfalso
        have hgd := hp1 hq WPhase.getting (by rw [hw]; simp)
        exact WPhase.noConfusion hgd
      case hcons =>
        refine Eq.trans ?_ hcons
        simp [outSeq, hw, hb, WPhase.held]
  | w1Put pre post v hw =>
      refine {
          hw1len := ?hw1len
          hw2len := hw2len
          hfi := hfi
          hc1 := hc1
          hc2 := hc2
          hu0 := ?hu0
          hu1 := ?hu1
          hu2 := hu2
          hs0 := ?hs0
          hs1 := ?hs1
          hs2 := hs2
          hf0 := hf0
          hf1 := ?hf1
          hf2 := hf2
          hn0 := ?hn0
          hn1 := ?hn1
          hp1 := ?hp1
          hp2 := hp2
          hz0 := hz0
          hz1 := ?hz1
          hfin := hfin
          hcons := ?hcons
        }
      case hw1len =>
        rw [hw] at hw1len
        simp only [List.length_append, List.length_cons] at hw1len ⊢
        omega
      case hu0 =>
        dsimp only
        rw [hw, countP_mid_true WPhase.holding pre post (WPhase.hasItem v) rfl] at hu0
        rw [countP_mid_true WPhase.holding pre post WPhase.didPut rfl]
        omega
      case hu1 =>
        dsimp only [QState.put]
        simp only [List.length_append, List.length_cons, List.length_nil]
        omega
      case hs0 =>
        dsimp only
        rw [hw, countP_mid_false WPhase.tookStop pre post (WPhase.hasItem v) rfl] at hs0
        rw [countP_mid_false WPhase.tookStop pre post WPhase.didPut rfl]
        omega
      case hs1 =>
        dsimp only [QState.put]
        simp only [stopsOf_append, stopsOf_cons_pay, stopsOf_nil]
        omega
      case hf1 =>
        have hstops : stopsOf s.q1.buf = 0 := by
          by_cases hcl : closes1 cfg s.pc = 0
          · omega
          · exfalso
            have hpast := past1_of_closes1_pos cfg s.pc (by omega)
            have hhd := hp1 hpast (WPhase.hasItem v) (by rw [hw]; simp)
            exact WPhase.noConfusion hhd
        exact PTS.append_pay hf1 hstops
      case hn0 =>
        dsimp only
        intro h'
        rw [countP_mid_false WPhase.tookStop pre post WPhase.didPut rfl] at h'
        rw [hw, countP_mid_false WPhase.tookStop pre post (WPhase.hasItem v) rfl] at hn0
        exact hn0 (by omega)
      case hn1 =>
        dsimp only
        intro h'
        exfalso
        have hcl : 0 < closes1 cfg s.pc := by omega
        have hpast := past1_of_closes1_pos cfg s.pc hcl
        have hhd := hp1 hpast (WPhase.hasItem v) (by rw [hw]; simp)
        exact WPhase.noConfusion hhd
      case hp1 =>
        intro hq
        exfalso
        have hhd := hp1 hq (WPhase.hasItem v) (by rw [hw]; simp)
        exact WPhase.noConfusion hhd
      case hz1 =>
        intro hq
        exfalso
        have hhd := hp1 (past1_of_pastJ1 _ hq) (WPhase.hasItem v) (by rw [hw]; simp)
        exact WPhase.noConfusion hhd
      case hcons =>
        refine Eq.trans ?_ hcons
        simp [outSeq, hw, QState.put, WPhase.held]
        repeat' first
          | exact List.perm_middle.symm
          | exact List.perm_middle
          | apply List.Perm.append_left
  | w1Ack pre post hw =>
      refine {
          hw1len := ?hw1len
          hw2len := hw2len
          hfi := hfi
          hc1 := hc1
          hc2 := hc2
          hu0 := ?hu0
          hu1 := hu1
          hu2 := hu2
          hs0 := ?hs0
          hs1 := hs1
          hs2 := hs2
          hf0 := hf0
          hf1 := hf1
          hf2 := hf2
          hn0 := ?hn0
          hn1 := hn1
          hp1 := ?hp1
          hp2 := hp2
          hz0 := ?hz0
          hz1 := hz1
          hfin := hfin
          hcons := ?hcons
        }
      case hw1len =>
        rw [hw] at hw1len
        simp only [List.length_append, List.length_cons] at hw1len ⊢
        omega
      case hu0 =>
        dsimp only [QState.acked]
        rw [hw, countP_mid_true WPhase.holding pre post WPhase.didPut rfl] at hu0
        rw [countP_mid_false WPhase.holding pre post WPhase.getting rfl]
        omega
      case hs0 =>
        dsimp only [QState.acked]
        rw [hw, countP_mid_false WPhase.tookStop pre post WPhase.didPut rfl] at hs0
        rw [countP_mid_false WPhase.tookStop pre post WPhase.getting rfl]
        omega
      case hn0 =>
        dsimp only [QState.acked]
        intro h'
        rw [countP_mid_false WPhase.tookStop pre post WPhase.getting rfl] at h'
        rw [hw, countP_mid_false WPhase.tookStop pre post WPhase.didPut rfl] at hn0
        exact hn0 (by omega)
      case hp1 =>
        intro hq
        exfalso
        have hhd := hp1 hq WPhase.didPut (by rw [hw]; simp)
        exact WPhase.noConfusion hhd
      case hz0 =>
        intro hq
        exfalso
        have h0 := hz0 hq
        rw [hw, countP_mid_true WPhase.holding pre post WPhase.didPut rfl] at hu0
        omega
      case hcons =>
        refine Eq.trans ?_ hcons
        simp [outSeq, hw, QState.acked, WPhase.held]
  | w1AckStop pre post hw =>
      refine {
          hw1len := ?hw1len
          hw2len := hw2len
          hfi := hfi
          hc1 := hc1
          hc2 := hc2
          hu0 := ?hu0
          hu1 := hu1
          hu2 := hu2
          hs0 := ?hs0
          hs1 := hs1
          hs2 := hs2
          hf0 := hf0
          hf1 := hf1
          hf2 := hf2
          hn0 := ?hn0
          hn1 := hn1
          hp1 := ?hp1
          hp2 := hp2
          hz0 := ?hz0
          hz1 := hz1
          hfin := hfin
          hcons := ?hcons
        }
      case hw1len =>
        rw [hw] at hw1len
        simp only [List.length_append, List.length_cons] at hw1len ⊢
        omega
      case hu0 =>
        dsimp only [QState.acked]
        rw [hw, countP_mid_true WPhase.holding pre post WPhase.stopping rfl] at hu0
        rw [countP_mid_false WPhase.holding pre post WPhase.done rfl]
        omega
      case hs0 =>
        dsimp only [QState.acked]
        rw [hw, countP_mid_true WPhase.tookStop pre post WPhase.stopping rfl] at hs0
        rw [countP_mid_true WPhase.tookStop pre post WPhase.done rfl]
        omega
      case hn0 =>
        dsimp only [QState.acked]
        intro h'
        rw [hw, countP_mid_true WPhase.tookStop pre post WPhase.stopping rfl] at hn0
        exact hn0 (by omega)
      case hp1 =>
        intro hq
        exfalso
        have hhd := hp1 hq WPhase.stopping (by rw [hw]; simp)
        exact WPhase.noConfusion hhd
      case hz0 =>
        intro hq
        exfalso
        have h0 := hz0 hq
        rw [hw, countP_mid_true WPhase.holding pre post WPhase.stopping rfl] at hu0
        omega
      case hcons =>
        refine Eq.trans ?_ hcons
        simp [outSeq, hw, QState.acked, WPhase.held]
  | w2GetPay pre post v rest hw hb =>
      refine {
          hw1len := hw1len
          hw2len := ?hw2len
          hfi := hfi
          hc1 := hc1
          hc2 := hc2
          hu0 := hu0
          hu1 := ?hu1
          hu2 := hu2
          hs0 := hs0
          hs1 := ?hs1
          hs2 := hs2
          hf0 := hf0
          hf1 := ?hf1
          hf2 := hf2
          hn0 := hn0
          hn1 := ?hn1
          hp1 := hp1
          hp2 := ?hp2
          hz0 := hz0
          hz1 := hz1
          hfin := hfin
          hcons := ?hcons
        }
      case hw2len =>
        rw [hw] at hw2len
        simp only [List.length_append, List.length_cons] at hw2len ⊢
        omega
      case hu1 =>
        dsimp only
        rw [hw, hb, countP_mid_false WPhase.holding pre post WPhase.getting rfl] at hu1
        simp only [List.length_cons] at hu1
        rw [countP_mid_true WPhase.holding pre post (WPhase.hasItem v) rfl]
        omega
      case hs1 =>
        dsimp only
        rw [hw, hb, countP_mid_false WPhase.tookStop pre post WPhase.getting rfl] at hs1
        simp only [stopsOf_cons_pay] at hs1
        rw [countP_mid_false WPhase.tookStop pre post (WPhase.hasItem v) rfl]
        omega
      case hf1 =>
        rw [hb] at hf1; exact hf1.tail
      case hn1 =>
        dsimp only
        intro h'
        exfalso
        rw [countP_mid_false WPhase.tookStop pre post (WPhase.hasItem v) rfl] at h'
        rw [hw, hb, countP_mid_false WPhase.tookStop pre post WPhase.getting rfl] at hn1
        have hpn := hn1 (by omega)
        simp at hpn
      case hp2 =>
        intro hq
        exfalso
        have hgd := hp2 hq WPhase.getting (by rw [hw]; simp)
        exact WPhase.noConfusion hgd
      case hcons =>
        refine Eq.trans ?_ hcons
        simp [outSeq, hw, hb, WPhase.held]
        repeat' first
          | exact List.perm_middle.symm
          | exact List.perm_middle
          | apply List.Perm.append_left
  | w2GetStop pre post rest hw hb =>
      refine {
          hw1len := hw1len
          hw2len := ?hw2len
          hfi := hfi
          hc1 := hc1
          hc2 := hc2
          hu0 := hu0
          hu1 := ?hu1
          hu2 := hu2
          hs0 := hs0
          hs1 := ?hs1
          hs2 := hs2
          hf0 := hf0
          hf1 := ?hf1
          hf2 := hf2
          hn0 := hn0
          hn1 := ?hn1
          hp1 := hp1
          hp2 := ?hp2
          hz0 := hz0
          hz1 := hz1
          hfin := hfin
          hcons := ?hcons
        }
      case hw2len =>
        rw [hw] at hw2len
        simp only [List.length_append, List.length_cons] at hw2len ⊢
        omega
      case hu1 =>
        dsimp only
        rw [hw, hb, countP_mid_false WPhase.holding pre post WPhase.getting rfl] at hu1
        simp only [List.length_cons] at hu1
        rw [countP_mid_true WPhase.holding pre post WPhase.stopping rfl]
        omega
      case hs1 =>
        dsimp only
        rw [hw, hb, countP_mid_false WPhase.tookStop pre post WPhase.getting rfl] at hs1
        simp only [stopsOf_cons_stop] at hs1
        rw [countP_mid_true WPhase.tookStop pre post WPhase.stopping rfl]
        omega
      case hf1 =>
        rw [hb] at hf1; exact hf1.tail
      case hn1 =>
        intro _
        rw [hb] at hf1
        exact hf1.pays_nil_of_stop_head
      case hp2 =>
        intro hq
        exfalso
        have hgd := hp2 hq WPhase.getting (by rw [hw]; simp)
        exact WPhase.noConfusion hgd
      case hcons =>
        refine Eq.trans ?_ hcons
        simp [outSeq, hw, hb, WPhase.held]
  | w2Put pre post v hw =>
      refine {
          hw1len := hw1len
          hw2len := ?hw2len
          hfi := hfi
          hc1 := hc1
          hc2 := hc2
          hu0 := hu0
          hu1 := ?hu1
          hu2 := ?hu2
          hs0 := hs0
          hs1 := ?hs1
          hs2 := ?hs2
          hf0 := hf0
          hf1 := hf1
          hf2 := ?hf2
          hn0 := hn0
          hn1 := ?hn1
          hp1 := hp1
          hp2 := ?hp2
          hz0 := hz0
          hz1 := hz1
          hfin := ?hfin
          hcons := ?hcons
        }
      case hw2len =>
        rw [hw] at hw2len
        simp only [List.length_append, List.length_cons] at hw2len ⊢
        omega
      case hu1 =>
        dsimp only
        rw [hw, countP_mid_true WPhase.holding pre post (WPhase.hasItem v) rfl] at hu1
        rw [countP_mid_true WPhase.holding pre post WPhase.didPut rfl]
        omega
      case hu2 =>
        dsimp only [QState.put]
        simp only [List.length_append, List.length_cons, List.length_nil]
        omega
      case hs1 =>
        dsimp only
        rw [hw, countP_mid_false WPhase.tookStop pre post (WPhase.hasItem v) rfl] at hs1
        rw [countP_mid_false WPhase.tookStop pre post WPhase.didPut rfl]
        omega
      case hs2 =>
        dsimp only [QState.put]
        simp only [stopsOf_append, stopsOf_cons_pay, stopsOf_nil]
        omega
      case hf2 =>
        have hstops : stopsOf s.q2.buf = 0 := by
          by_cases hd : s.pc = CPC.draining
          · exfalso
            have hhd := hp2 (by rw [hd]; rfl) (WPhase.hasItem v) (by rw [hw]; simp)
            exact WPhase.noConfusion hhd
          · rw [hs2]; exact stops2_eq_zero hd
        exact PTS.append_pay hf2 hstops
      case hn1 =>
        dsimp only
        intro h'
        rw [countP_mid_false WPhase.tookStop pre post WPhase.didPut rfl] at h'
        rw [hw, countP_mid_false WPhase.tookStop pre post (WPhase.hasItem v) rfl] at hn1
        exact hn1 (by omega)
      case hp2 =>
        intro hq
        exfalso
        have hhd := hp2 hq (WPhase.hasItem v) (by rw [hw]; simp)
        exact WPhase.noConfusion hhd
      case hfin =>
        intro hq
        exfalso
        have hq' : s.pc = CPC.finished := hq
        have hhd := hp2 (by rw [hq']; rfl) (WPhase.hasItem v) (by rw [hw]; simp)
        exact WPhase.noConfusion hhd
      case hcons =>
        refine Eq.trans ?_ hcons
        simp [outSeq, hw, QState.put, WPhase.held]
        repeat' first
          | exact List.perm_middle.symm
          | exact List.perm_middle
          | apply List.Perm.append_left
  | w2Ack pre post hw =>
      refine {
          hw1len := hw1len
          hw2len := ?hw2len
          hfi := hfi
          hc1 := hc1
          hc2 := hc2
          hu0 := hu0
          hu1 := ?hu1
          hu2 := hu2
          hs0 := hs0
          hs1 := ?hs1
          hs2 := hs2
          hf0 := hf0
          hf1 := hf1
          hf2 := hf2
          hn0 := hn0
          hn1 := ?hn1
          hp1 := hp1
          hp2 := ?hp2
          hz0 := hz0
          hz1 := ?hz1
          hfin := hfin
          hcons := ?hcons
        }
      case hw2len =>
        rw [hw] at hw2len
        simp only [List.length_append, List.length_cons] at hw2len ⊢
        omega
      case hu1 =>
        dsimp only [QState.acked]
        rw [hw, countP_mid_true WPhase.holding pre post WPhase.didPut rfl] at hu1
        rw [countP_mid_false WPhase.holding pre post WPhase.getting rfl]
        omega
      case hs1 =>
        dsimp only [QState.acked]
        rw [hw, countP_mid_false WPhase.tookStop pre post WPhase.didPut rfl] at hs1
        rw [countP_mid_false WPhase.tookStop pre post WPhase.getting rfl]
        omega
      case hn1 =>
        dsimp only [QState.acked]
        intro h'
        rw [countP_mid_false WPhase.tookStop pre post WPhase.getting rfl] at h'
        rw [hw, countP_mid_false WPhase.tookStop pre post WPhase.didPut rfl] at hn1
        exact hn1 (by omega)
      case hp2 =>
        intro hq
        exfalso
        have hhd := hp2 hq WPhase.didPut (by rw [hw]; simp)
        exact WPhase.noConfusion hhd
      case hz1 =>
        intro hq
        exfalso
        have h0 := hz1 hq
        rw [hw, countP_mid_true WPhase.holding pre post WPhase.didPut rfl] at hu1
        omega
      case hcons =>
        refine Eq.trans ?_ hcons
        simp [outSeq, hw, QState.acked, WPhase.held]
  | w2AckStop pre post hw =>
      refine {
          hw1len := hw1len
          hw2len := ?hw2len
          hfi := hfi
          hc1 := hc1
          hc2 := hc2
          hu0 := hu0
          hu1 := ?hu1
          hu2 := hu2
          hs0 := hs0
          hs1 := ?hs1
          hs2 := hs2
          hf0 := hf0
          hf1 := hf1
          hf2 := hf2
          hn0 := hn0
          hn1 := ?hn1
          hp1 := hp1
          hp2 := ?hp2
          hz0 := hz0
          hz1 := ?hz1
          hfin := hfin
          hcons := ?hcons
        }
      case hw2len =>
        rw [hw] at hw2len
        simp only [List.length_append, List.length_cons] at hw2len ⊢
        omega
      case hu1 =>
        dsimp only [QState.acked]
        rw [hw, countP_mid_true WPhase.holding pre post WPhase.stopping rfl] at hu1
        rw [countP_mid_false WPhase.holding pre post WPhase.done rfl]
        omega
      case hs1 =>
        dsimp only [QState.acked]
        rw [hw, countP_mid_true WPhase.tookStop pre post WPhase.stopping rfl] at hs1
        rw [countP_mid_true WPhase.tookStop pre post WPhase.done rfl]
        omega
      case hn1 =>
        dsimp only [QState.acked]
        intro h'
        rw [hw, countP_mid_true WPhase.tookStop pre post WPhase.stopping rfl] at hn1
        exact hn1 (by omega)
      case hp2 =>
        intro hq
        exfalso
        have hhd := hp2 hq WPhase.stopping (by rw [hw]; simp)
        exact WPhase.noConfusion hhd
      case hz1 =>
        intro hq
        exfalso
        have h0 := hz1 hq
        rw [hw, countP_mid_true WPhase.holding pre post WPhase.stopping rfl] at hu1
        omega
      case hcons =>
        refine Eq.trans ?_ hcons
        simp [outSeq, hw, QState.acked, WPhase.held]

/-- Every step strictly decreases the measure, so every execution is finite. -/
theorem measure_decreases {cfg : Cfg V} {s s' : St V} (hst : Step cfg s s') :
    measureSt cfg s' < measureSt cfg s := by
  cases hst with
  | cFeed i hp h =>
      simp [measureSt, cpcW, hp, QState.put, qItemW]
      try omega
  | cFeedDone hp =>
      simp [measureSt, cpcW, hp]
      try omega
  | cClose1 j hp h =>
      simp [measureSt, cpcW, hp, QState.put, qItemW]
      try omega
  | cClose1Done hp =>
      simp [measureSt, cpcW, hp]
      try omega
  | cJoinQ0 hp h =>
      simp [measureSt, cpcW, hp]
      try omega
  | cJoinP1 hp h =>
      simp [measureSt, cpcW, hp]
      try omega
  | cClose2 j hp h =>
      simp [measureSt, cpcW, hp, QState.put, qItemW]
      try omega
  | cClose2Done hp =>
      simp [measureSt, cpcW, hp]
      try omega
  | cJoinQ1 hp h =>
      simp [measureSt, cpcW, hp]
      try omega
  | cJoinP2 hp h =>
      simp [measureSt, cpcW, hp]
      try omega
  | cCloseQ2 hp =>
      simp [measureSt, cpcW, hp, QState.put, qItemW]
      try omega
  | cDrainPay v rest hp hb =>
      simp [measureSt, cpcW, hp, hb, qItemW]
  | cDrainStop rest hp hb =>
      simp [measureSt, cpcW, hp, hb, qItemW]
      try omega
  | w1GetPay pre post v rest hw hb =>
      simp [measureSt, hw, hb, qItemW, wWt1]
      try omega
  | w1GetStop pre post rest hw hb =>
      simp [measureSt, hw, hb, qItemW, wWt1]
      try omega
  | w1Put pre post v hw =>
      simp [measureSt, hw, QState.put, qItemW, wWt1]
      try omega
  | w1Ack pre post hw =>
      simp [measureSt, hw, QState.acked, wWt1]
      try omega
  | w1AckStop pre post hw =>
      simp [measureSt, hw, QState.acked, wWt1]
      try omega
  | w2GetPay pre post v rest hw hb =>
      simp [measureSt, hw, hb, qItemW, wWt2]
      try omega
  | w2GetStop pre post rest hw hb =>
      simp [measureSt, hw, hb, qItemW, wWt2]
      try omega
  | w2Put pre post v hw =>
      simp [measureSt, hw, QState.put, qItemW, wWt2]
      try omega
  | w2Ack pre post hw =>
      simp [measureSt, hw, QState.acked, wWt2]
      try omega
  | w2AckStop pre post hw =>
      simp [measureSt, hw, QState.acked, wWt2]
      try omega

/-! ### Reachability, progress, and terminal states -/

/-- The invariant holds in every reachable state. -/
theorem reach_inv {cfg : Cfg V} {s : St V} (hr : Reach cfg s) : Inv cfg s := by
  induction hr with
  | refl => exact inv_init cfg
  | tail _hr hst ih => exact inv_step ih hst

/-- A pool in which every thread is `done` holds no payloads. -/
theorem heldOf_eq_nil {w : List (WPhase V)} (h : ∀ x ∈ w, x = WPhase.done) :
    heldOf w = [] := by
  induction w with
  | nil => rfl
  | cons a l ih =>
      have ha := h a (by simp)
      subst ha
      simp [WPhase.held]
      exact ih fun x hx => h x (by simp [hx])

/-- As long as `main` has not finished, some thread of the program can take a
step: the pipeline never deadlocks (given at least one worker per stage). -/
theorem progress {cfg : Cfg V} {s : St V} (hI : Inv cfg s) (h1 : 1 ≤ cfg.k1)
    (h2 : 1 ≤ cfg.k2) (hne : s.pc ≠ CPC.finished) : ∃ s', Step cfg s s' := by
  obtain ⟨hw1len, hw2len, hfi, hc1, hc2, hu0, hu1, hu2, hs0, hs1, hs2, hf0, hf1, hf2,
    hn0, hn1, hp1, hp2, hz0, hz1, hfin, hcons⟩ := hI
  cases hpc : s.pc with
  | feeding i =>
      rcases Nat.lt_or_ge i cfg.N with h | h
      · exact ⟨_, Step.cFeed s i hpc h⟩
      · have hiN : i = cfg.N := le_antisymm (hfi i hpc) h
        subst hiN
        exact ⟨_, Step.cFeedDone s hpc⟩
  | closing1 j =>
      rcases Nat.lt_or_ge j cfg.k1 with h | h
      · exact ⟨_, Step.cClose1 s j hpc h⟩
      · have hjk : j = cfg.k1 := le_antisymm (hc1 j hpc) h
        subst hjk
        exact ⟨_, Step.cClose1Done s hpc⟩
  | joinQ0 =>
      by_cases hu : s.q0.unfinished = 0
      · exact ⟨_, Step.cJoinQ0 s hpc hu⟩
      by_cases hhold : 0 < s.w1.countP WPhase.holding
      · obtain ⟨x, hxm, hx⟩ := List.countP_pos_iff.mp hhold
        obtain ⟨pre, post, hw⟩ := List.append_of_mem hxm
        cases x with
        | hasItem v => exact ⟨_, Step.w1Put s pre post v hw⟩
        | didPut => exact ⟨_, Step.w1Ack s pre post hw⟩
        | stopping => exact ⟨_, Step.w1AckStop s pre post hw⟩
        | getting => simp [WPhase.holding] at hx
        | done => simp [WPhase.holding] at hx
      · have hbuf : s.q0.buf ≠ [] := by
          intro hnil
          rw [hnil] at hu0
          simp at hu0
          omega
        obtain ⟨x, rest, hb⟩ := List.exists_cons_of_ne_nil hbuf
        by_cases hget : WPhase.getting ∈ s.w1
        · obtain ⟨pre, post, hw⟩ := List.append_of_mem hget
          cases x with
          | pay v => exact ⟨_, Step.w1GetPay s pre post v rest hw hb⟩
          | stop => exact ⟨_, Step.w1GetStop s pre post rest hw hb⟩
        · exfalso
          have hdone : ∀ w ∈ s.w1, w = WPhase.done := by
            intro w hwm
            cases w with
            | getting => exact absurd hwm hget
            | done => rfl
            | hasItem v =>
                exact absurd (List.countP_pos_iff.mpr ⟨_, hwm, rfl⟩) hhold
            | didPut =>
                exact absurd (List.countP_pos_iff.mpr ⟨_, hwm, rfl⟩) hhold
            | stopping =>
                exact absurd (List.countP_pos_iff.mpr ⟨_, hwm, rfl⟩) hhold
          have htook : s.w1.countP WPhase.tookStop = s.w1.length := by
            apply List.countP_eq_length.mpr
            intro a ha
            rw [hdone a ha]
            rfl
          rw [hpc] at hs0
          simp [closes0] at hs0
          rw [htook, hw1len] at hs0
          have hpays : paysOf s.q0.buf = [] := by
            apply hn0
            rw [htook, hw1len]
            omega
          have hlen := length_eq_pays_add_stops s.q0.buf
          rw [hpays] at hlen
          simp at hlen
          have : s.q0.buf = [] := List.length_eq_zero.mp (by omega)
          exact hbuf this
  | joinP1 =>
      have hzz : s.q0.unfinished = 0 := by
        apply hz0
        rw [hpc]
        rfl
      rw [hzz] at hu0
      have hbuf : s.q0.buf = [] := List.length_eq_zero.mp (by omega)
      have hhold : s.w1.countP WPhase.holding = 0 := by omega
      rw [hpc] at hs0
      rw [hbuf] at hs0
      simp [closes0] at hs0
      have hdone : ∀ w ∈ s.w1, w = WPhase.done := by
        intro w hwm
        have hnh : WPhase.holding w = false := by
          rcases Bool.eq_false_or_eq_true (WPhase.holding w) with hh | hh
          · exact absurd (List.countP_pos_iff.mpr ⟨_, hwm, hh⟩) (by omega)
          · exact hh
        have htk := List.countP_eq_length.mp (by rw [hs0, hw1len]) _ hwm
        cases w with
        | done => rfl
        | getting => simp [WPhase.tookStop] at htk
        | hasItem v => simp [WPhase.holding] at hnh
        | didPut => simp [WPhase.holding] at hnh
        | stopping => simp [WPhase.holding] at hnh
      exact ⟨_, Step.cJoinP1 s hpc hdone⟩
  | closing2 j =>
      rcases Nat.lt_or_ge j cfg.k2 with h | h
      · exact ⟨_, Step.cClose2 s j hpc h⟩
      · have hjk : j = cfg.k2 := le_antisymm (hc2 j hpc) h
        subst hjk
        exact ⟨_, Step.cClose2Done s hpc⟩
  | joinQ1 =>
      by_cases hu : s.q1.unfinished = 0
      · exact ⟨_, Step.cJoinQ1 s hpc hu⟩
      by_cases hhold : 0 < s.w2.countP WPhase.holding
      · obtain ⟨x, hxm, hx⟩ := List.countP_pos_iff.mp hhold
        obtain ⟨pre, post, hw⟩ := List.append_of_mem hxm
        cases x with
        | hasItem v => exact ⟨_, Step.w2Put s pre post v hw⟩
        | didPut => exact ⟨_, Step.w2Ack s pre post hw⟩
        | stopping => exact ⟨_, Step.w2AckStop s pre post hw⟩
        | getting => simp [WPhase.holding] at hx
        | done => simp [WPhase.holding] at hx
      · have hbuf : s.q1.buf ≠ [] := by
          intro hnil
          rw [hnil] at hu1
          simp at hu1
          omega
        obtain ⟨x, rest, hb⟩ := List.exists_cons_of_ne_nil hbuf
        by_cases hget : WPhase.getting ∈ s.w2
        · obtain ⟨pre, post, hw⟩ := List.append_of_mem hget
          cases x with
          | pay v => exact ⟨_, Step.w2GetPay s pre post v rest hw hb⟩
          | stop => exact ⟨_, Step.w2GetStop s pre post rest hw hb⟩
        · exfalso
          have hdone : ∀ w ∈ s.w2, w = WPhase.done := by
            intro w hwm
            cases w with
            | getting => exact absurd hwm hget
            | done => rfl
            | hasItem v =>
                exact absurd (List.countP_pos_iff.mpr ⟨_, hwm, rfl⟩) hhold
            | didPut =>
                exact absurd (List.countP_pos_iff.mpr ⟨_, hwm, rfl⟩) hhold
            | stopping =>
                exact absurd (List.countP_pos_iff.mpr ⟨_, hwm, rfl⟩) hhold
          have htook : s.w2.countP WPhase.tookStop = s.w2.length := by
            apply List.countP_eq_length.mpr
            intro a ha
            rw [hdone a ha]
            rfl
          rw [hpc] at hs1
          simp [closes1] at hs1
          rw [htook, hw2len] at hs1
          have hpays : paysOf s.q1.buf = [] := by
            apply hn1
            rw [htook, hw2len]
            omega
          have hlen := length_eq_pays_add_stops s.q1.buf
          rw [hpays] at hlen
          simp at hlen
          have : s.q1.buf = [] := List.length_eq_zero.mp (by omega)
          exact hbuf this
  | joinP2 =>
      have hzz : s.q1.unfinished = 0 := by
        apply hz1
        rw [hpc]
        rfl
      rw [hzz] at hu1
      have hbuf : s.q1.buf = [] := List.length_eq_zero.mp (by omega)
      have hhold : s.w2.countP WPhase.holding = 0 := by omega
      rw [hpc] at hs1
      rw [hbuf] at hs1
      simp [closes1] at hs1
      have hdone : ∀ w ∈ s.w2, w = WPhase.done := by
        intro w hwm
        have hnh : WPhase.holding w = false := by
          rcases Bool.eq_false_or_eq_true (WPhase.holding w) with hh | hh
          · exact absurd (List.countP_pos_iff.mpr ⟨_, hwm, hh⟩) (by omega)
          · exact hh
        have htk := List.countP_eq_length.mp (by rw [hs1, hw2len]) _ hwm
        cases w with
        | done => rfl
        | getting => simp [WPhase.tookStop] at htk
        | hasItem v => simp [WPhase.holding] at hnh
        | didPut => simp [WPhase.holding] at hnh
        | stopping => simp [WPhase.holding] at hnh
      exact ⟨_, Step.cJoinP2 s hpc hdone⟩
  | closeQ2 => exact ⟨_, Step.cCloseQ2 s hpc⟩
  | draining =>
      have hone : stopsOf s.q2.buf = 1 := by
        rw [hpc] at hs2
        simpa [stops2] using hs2
      have hbuf : s.q2.buf ≠ [] := by
        intro hnil
        rw [hnil] at hone
        simp at hone
      obtain ⟨x, rest, hb⟩ := List.exists_cons_of_ne_nil hbuf
      cases x with
      | pay v => exact ⟨_, Step.cDrainPay s v rest hpc hb⟩
      | stop => exact ⟨_, Step.cDrainStop s rest hpc hb⟩
  | finished => exact absurd hpc hne

/-- A state whose program counter is `finished` has no enabled step. -/
theorem terminal_of_finished {cfg : Cfg V} {s : St V} (hI : Inv cfg s)
    (hpc : s.pc = CPC.finished) : Terminal cfg s := by
  rintro ⟨s', hst⟩
  have hd1 : ∀ w ∈ s.w1, w = WPhase.done := hI.hp1 (by rw [hpc]; rfl)
  have hd2 : ∀ w ∈ s.w2, w = WPhase.done := hI.hp2 (by rw [hpc]; rfl)
  cases hst with
  | cFeed i hp h => rw [hpc] at hp; exact CPC.noConfusion hp
  | cFeedDone hp => rw [hpc] at hp; exact CPC.noConfusion hp
  | cClose1 j hp h => rw [hpc] at hp; exact CPC.noConfusion hp
  | cClose1Done hp => rw [hpc] at hp; exact CPC.noConfusion hp
  | cJoinQ0 hp h => rw [hpc] at hp; exact CPC.noConfusion hp
  | cJoinP1 hp h => rw [hpc] at hp; exact CPC.noConfusion hp
  | cClose2 j hp h => rw [hpc] at hp; exact CPC.noConfusion hp
  | cClose2Done hp => rw [hpc] at hp; exact CPC.noConfusion hp
  | cJoinQ1 hp h => rw [hpc] at hp; exact CPC.noConfusion hp
  | cJoinP2 hp h => rw [hpc] at hp; exact CPC.noConfusion hp
  | cCloseQ2 hp => rw [hpc] at hp; exact CPC.noConfusion hp
  | cDrainPay v rest hp hb => rw [hpc] at hp; exact CPC.noConfusion hp
  | cDrainStop rest hp hb => rw [hpc] at hp; exact CPC.noConfusion hp
  | w1GetPay pre post v rest hw hb =>
      exact WPhase.noConfusion (hd1 WPhase.getting (by rw [hw]; simp))
  | w1GetStop pre post rest hw hb =>
      exact WPhase.noConfusion (hd1 WPhase.getting (by rw [hw]; simp))
  | w1Put pre post v hw =>
      exact WPhase.noConfusion (hd1 (WPhase.hasItem v) (by rw [hw]; simp))
  | w1Ack pre post hw =>
      exact WPhase.noConfusion (hd1 WPhase.didPut (by rw [hw]; simp))
  | w1AckStop pre post hw =>
      exact WPhase.noConfusion (hd1 WPhase.stopping (by rw [hw]; simp))
  | w2GetPay pre post v rest hw hb =>
      exact WPhase.noConfusion (hd2 WPhase.getting (by rw [hw]; simp))
  | w2GetStop pre post rest hw hb =>
      exact WPhase.noConfusion (hd2 WPhase.getting (by rw [hw]; simp))
  | w2Put pre post v hw =>
      exact WPhase.noConfusion (hd2 (WPhase.hasItem v) (by rw [hw]; simp))
  | w2Ack pre post hw =>
      exact WPhase.noConfusion (hd2 WPhase.didPut (by rw [hw]; simp))
  | w2AckStop pre post hw =>
      exact WPhase.noConfusion (hd2 WPhase.stopping (by rw [hw]; simp))

/-- In a reachable terminal state the coordinator has finished. -/
theorem terminal_finished {cfg : Cfg V} {s : St V} (hr : Reach cfg s)
    (ht : Terminal cfg s) (h1 : 1 ≤ cfg.k1) (h2 : 1 ≤ cfg.k2) :
    s.pc = CPC.finished := by
  by_contra hne
  exact ht (progress (reach_inv hr) h1 h2 hne)

/-- What a finished state looks like: empty queues, exited workers, and the
collected results carrying every source item's final value exactly once. -/
theorem finished_state {cfg : Cfg V} {s : St V} (hI : Inv cfg s)
    (hpc : s.pc = CPC.finished) :
    s.q0.buf = [] ∧ s.q1.buf = [] ∧ s.q2.buf = [] ∧
      (∀ w ∈ s.w1, w = WPhase.done) ∧ (∀ w ∈ s.w2, w = WPhase.done) ∧
      (s.collected : Multiset V) = (allResults cfg : List V) ∧
      s.collected.length = cfg.N := by
  obtain ⟨hw1len, hw2len, hfi, hc1, hc2, hu0, hu1, hu2, hs0, hs1, hs2, hf0, hf1, hf2,
    hn0, hn1, hp1, hp2, hz0, hz1, hfin, hcons⟩ := hI
  have hd1 : ∀ w ∈ s.w1, w = WPhase.done := hp1 (by rw [hpc]; rfl)
  have hd2 : ∀ w ∈ s.w2, w = WPhase.done := hp2 (by rw [hpc]; rfl)
  have hz0f := hz0 (by rw [hpc]; rfl)
  have hz1f := hz1 (by rw [hpc]; rfl)
  rw [hz0f] at hu0
  rw [hz1f] at hu1
  have hb0 : s.q0.buf = [] := List.length_eq_zero.mp (by omega)
  have hb1 : s.q1.buf = [] := List.length_eq_zero.mp (by omega)
  have hb2 : s.q2.buf = [] := hfin hpc
  have hms : (s.collected : Multiset V) = (allResults cfg : List V) := by
    have hout : outSeq cfg s = s.collected := by
      simp [outSeq, hb0, hb1, hb2, heldOf_eq_nil hd1, heldOf_eq_nil hd2, toFeed, hpc]
    rw [hout] at hcons
    exact hcons
  refine ⟨hb0, hb1, hb2, hd1, hd2, hms, ?_⟩
  have hcard := congrArg Multiset.card hms
  simpa [allResults] using hcard

/-- From any reachable state some terminal state is reachable: the run always
completes (the measure bounds the number of remaining steps). -/
theorem exists_terminal_aux {cfg : Cfg V} (h1 : 1 ≤ cfg.k1) (h2 : 1 ≤ cfg.k2) :
    ∀ (m : Nat) (s : St V), measureSt cfg s ≤ m → Reach cfg s →
      ∃ t, Relation.ReflTransGen (Step cfg) s t ∧ Terminal cfg t := by
  intro m
  induction m with
  | zero =>
      intro s hm hr
      by_cases ht : Terminal cfg s
      · exact ⟨s, Relation.ReflTransGen.refl, ht⟩
      · exfalso
        rw [Terminal] at ht
        push_neg at ht
        obtain ⟨s', hst⟩ := ht
        have := measure_decreases hst
        omega
  | succ n ih =>
      intro s hm hr
      by_cases ht : Terminal cfg s
      · exact ⟨s, Relation.ReflTransGen.refl, ht⟩
      · rw [Terminal] at ht
        push_neg at ht
        obtain ⟨s', hst⟩ := ht
        have hlt := measure_decreases hst
        obtain ⟨t, hrt, htt⟩ := ih s' (by omega) (hr.tail hst)
        exact ⟨t, Relation.ReflTransGen.head hst hrt, htt⟩

theorem exists_terminal {cfg : Cfg V} {s : St V} (h1 : 1 ≤ cfg.k1) (h2 : 1 ≤ cfg.k2)
    (hr : Reach cfg s) :
    ∃ t, Relation.ReflTransGen (Step cfg) s t ∧ Terminal cfg t :=
  exists_terminal_aux h1 h2 (measureSt cfg s) s le_rfl hr

/-! ### Order preservation with one worker per stage

With a single worker per stage the conservation sequence `outSeq` is not just
permutation-invariant but literally constant: FIFO queues and a lone consumer
preserve item order end to end. -/

theorem heldOf_replicate_getting (k : Nat) :
    heldOf (List.replicate k (WPhase.getting : WPhase V)) = [] := by
  induction k with
  | zero => rfl
  | succ n ih => simp [List.replicate_succ, WPhase.held, ih]

theorem seq_init (cfg : Cfg V) : outSeq cfg (initSt cfg) = allResults cfg := by
  simp [outSeq, initSt, toFeed, allResults, heldOf_replicate_getting, List.range_eq_range']

theorem seq_step {cfg : Cfg V} {s s' : St V} (hk1 : cfg.k1 = 1) (hk2 : cfg.k2 = 1)
    (hI : Inv cfg s) (hst : Step cfg s s')
    (hS : outSeq cfg s = allResults cfg) : outSeq cfg s' = allResults cfg := by
  cases hst with
  | cFeed i hp h =>
      refine Eq.trans ?_ hS
      have htf : cfg.N - i = (cfg.N - (i + 1)) + 1 := by omega
      simp [outSeq, hp, QState.put, toFeed, htf, List.range'_succ]
  | cFeedDone hp =>
      refine Eq.trans ?_ hS
      simp [outSeq, hp, toFeed]
  | cClose1 j hp h =>
      refine Eq.trans ?_ hS
      simp [outSeq, hp, QState.put, toFeed]
  | cClose1Done hp =>
      refine Eq.trans ?_ hS
      simp [outSeq, hp, toFeed]
  | cJoinQ0 hp h =>
      refine Eq.trans ?_ hS
      simp [outSeq, hp, toFeed]
  | cJoinP1 hp h =>
      refine Eq.trans ?_ hS
      simp [outSeq, hp, toFeed]
  | cClose2 j hp h =>
      refine Eq.trans ?_ hS
      simp [outSeq, hp, QState.put, toFeed]
  | cClose2Done hp =>
      refine Eq.trans ?_ hS
      simp [outSeq, hp, toFeed]
  | cJoinQ1 hp h =>
      refine Eq.trans ?_ hS
      simp [outSeq, hp, toFeed]
  | cJoinP2 hp h =>
      refine Eq.trans ?_ hS
      simp [outSeq, hp, toFeed]
  | cCloseQ2 hp =>
      refine Eq.trans ?_ hS
      simp [outSeq, hp, QState.put, toFeed]
  | cDrainPay v rest hp hb =>
      refine Eq.trans ?_ hS
      simp [outSeq, hb]
  | cDrainStop rest hp hb =>
      refine Eq.trans ?_ hS
      simp [outSeq, hp, toFeed, hb]
  | w1GetPay pre post v rest hw hb =>
      have hl := hI.hw1len
      rw [hw, hk1] at hl
      simp only [List.length_append, List.length_cons] at hl
      have hpre : pre = [] := List.length_eq_zero.mp (by omega)
      have hpost : post = [] := List.length_eq_zero.mp (by omega)
      subst hpre
      subst hpost
      refine Eq.trans ?_ hS
      simp [outSeq, hw, hb, WPhase.held]
  | w1GetStop pre post rest hw hb =>
      refine Eq.trans ?_ hS
      simp [outSeq, hw, hb, WPhase.held]
  | w1Put pre post v hw =>
      have hl := hI.hw1len
      rw [hw, hk1] at hl
      simp only [List.length_append, List.length_cons] at hl
      have hpre : pre = [] := List.length_eq_zero.mp (by omega)
      have hpost : post = [] := List.length_eq_zero.mp (by omega)
      subst hpre
      subst hpost
      refine Eq.trans ?_ hS
      simp [outSeq, hw, QState.put, WPhase.held]
  | w1Ack pre post hw =>
      refine Eq.trans ?_ hS
      simp [outSeq, hw, QState.acked, WPhase.held]
  | w1AckStop pre post hw =>
      refine Eq.trans ?_ hS
      simp [outSeq, hw, QState.acked, WPhase.held]
  | w2GetPay pre post v rest hw hb =>
      have hl := hI.hw2len
      rw [hw, hk2] at hl
      simp only [List.length_append, List.length_cons] at hl
      have hpre : pre = [] := List.length_eq_zero.mp (by omega)
      have hpost : post = [] := List.length_eq_zero.mp (by omega)
      subst hpre
      subst hpost
      refine Eq.trans ?_ hS
      simp [outSeq, hw, hb, WPhase.held]
  | w2GetStop pre post rest hw hb =>
      refine Eq.trans ?_ hS
      simp [outSeq, hw, hb, WPhase.held]
  | w2Put pre post v hw =>
      have hl := hI.hw2len
      rw [hw, hk2] at hl
      simp only [List.length_append, List.length_cons] at hl
      have hpre : pre = [] := List.length_eq_zero.mp (by omega)
      have hpost : post = [] := List.length_eq_zero.mp (by omega)
      subst hpre
      subst hpost
      refine Eq.trans ?_ hS
      simp [outSeq, hw, QState.put, WPhase.held]
  | w2Ack pre post hw =>
      refine Eq.trans ?_ hS
      simp [outSeq, hw, QState.acked, WPhase.held]
  | w2AckStop pre post hw =>
      refine Eq.trans ?_ hS
      simp [outSeq, hw, QState.acked, WPhase.held]

theorem reach_seq {cfg : Cfg V} (hk1 : cfg.k1 = 1) (hk2 : cfg.k2 = 1) {s : St V}
    (hr : Reach cfg s) : outSeq cfg s = allResults cfg := by
  induction hr with
  | refl => exact seq_init cfg
  | tail hr hst ih => exact seq_step hk1 hk2 (reach_inv hr) hst ih

/-- With one worker per stage, the collected results of a finished run are the
source items' final values in submission order. -/
theorem single_worker_collected {cfg : Cfg V} (hk1 : cfg.k1 = 1) (hk2 : cfg.k2 = 1)
    {s : St V} (hr : Reach cfg s) (hpc : s.pc = CPC.finished) :
    s.collected = allResults cfg := by
  have hseq := reach_seq hk1 hk2 hr
  obtain ⟨hb0, hb1, hb2, hd1, hd2, _hms, _hlen⟩ := finished_state (reach_inv hr) hpc
  have hout : outSeq cfg s = s.collected := by
    simp [outSeq, hb0, hb1, hb2, heldOf_eq_nil hd1, heldOf_eq_nil hd2, toFeed, hpc]
  rw [hout] at hseq
  exact hseq

/-! ### Facts about the iterator and worker traces -/

theorem iterTrace_shape (xs : List V) (rest : List (QItem V)) :
    iterTrace (xs.map QItem.pay ++ QItem.stop :: rest)
      = (xs.map fun v => [IterEv.yieldE v, IterEv.ackE]).flatten ++ [IterEv.ackE] := by
  induction xs with
  | nil => simp [iterTrace]
  | cons v vs ih => simp [iterTrace, ih]

theorem yieldsOf_iterTrace (xs : List V) (rest : List (QItem V)) :
    yieldsOf (iterTrace (xs.map QItem.pay ++ QItem.stop :: rest)) = xs := by
  rw [iterTrace_shape]
  induction xs with
  | nil => simp [yieldsOf]
  | cons v vs ih => simpa [yieldsOf] using ih

theorem ackCount_iterTrace (xs : List V) (rest : List (QItem V)) :
    ackCount (iterTrace (xs.map QItem.pay ++ QItem.stop :: rest)) = xs.length + 1 := by
  rw [iterTrace_shape]
  induction xs with
  | nil => simp [ackCount]
  | cons v vs ih =>
      simp [ackCount, List.countP_append, List.countP_cons] at ih ⊢
      omega

theorem workerTrace_shape (f : V → V) (xs : List V) (rest : List (QItem V)) :
    workerTrace f (xs.map QItem.pay ++ QItem.stop :: rest)
      = (xs.map fun v => [WEv.getPay v, WEv.putOut (QItem.pay (f v)), WEv.ackIn]).flatten
          ++ [WEv.getStop, WEv.ackIn] := by
  induction xs with
  | nil => simp [workerTrace]
  | cons v vs ih => simp [workerTrace, ih]

/-- Before the worker pops the stop marker, it never has more `task_done`
acknowledgments than completed `put`s: every input item is acknowledged only
after its result has been pushed downstream. -/
theorem ack_le_put_until_stop (f : V → V) (xs : List V) (rest : List (QItem V)) :
    ∀ p, p <+: workerTrace f (xs.map QItem.pay ++ QItem.stop :: rest) →
      (WEv.getStop : WEv V) ∉ p → ackInCount p ≤ putCount p := by
  induction xs with
  | nil =>
      intro p hpre hns
      simp [workerTrace] at hpre
      rcases p with _ | ⟨a, p'⟩
      · simp [ackInCount, putCount]
      · exfalso
        have ha : a = WEv.getStop := by
          cases hpre with
          | intro t ht => simpa using congrArg (fun l => l.head?) ht
        exact hns (by simp [ha])
  | cons v vs ih =>
      intro p hpre hns
      simp only [List.map_cons, List.cons_append, workerTrace] at hpre
      rcases p with _ | ⟨a, p1⟩
      · simp [ackInCount, putCount]
      obtain ⟨ha, hp1⟩ := (List.cons_prefix_cons).mp hpre
      rcases p1 with _ | ⟨b, p2⟩
      · subst ha
        simp [ackInCount, putCount]
      obtain ⟨hb, hp2⟩ := (List.cons_prefix_cons).mp hp1
      rcases p2 with _ | ⟨c, p3⟩
      · subst ha
        subst hb
        simp [ackInCount, putCount, List.countP_cons]
      obtain ⟨hc, hp3⟩ := (List.cons_prefix_cons).mp hp2
      have hns3 : (WEv.getStop : WEv V) ∉ p3 := by
        intro hm
        exact hns (by simp [hm])
      have := ih p3 hp3 hns3
      subst ha
      subst hb
      subst hc
      simp [ackInCount, putCount, List.countP_cons] at this ⊢
      omega

theorem workerRunE_shape (f : V → Option V) (as : List V) (b : V) (cs : List V)
    (rest : List (QItem V)) (ha : ∀ a ∈ as, (f a).isSome) (hb : f b = none) :
    workerRunE f ((as ++ b :: cs).map QItem.pay ++ QItem.stop :: rest)
      = ((as.map fun a => [WEv.getPay a, WEv.putOut (QItem.pay ((f a).getD a)), WEv.ackIn]).flatten
          ++ [WEv.getPay b], ROut.raisedR) := by
  induction as with
  | nil => simp [workerRunE, hb]
  | cons a as' ih =>
      have hfa : (f a).isSome := ha a (by simp)
      obtain ⟨u, hu⟩ := Option.isSome_iff_exists.mp hfa
      have ih' := ih fun x hx => ha x (by simp [hx])
      simp only [List.map_append, List.map_cons, List.cons_append] at ih'
      simp [workerRunE, hu]
      refine ⟨?_, ?_⟩
      · simpa using congrArg Prod.fst ih'
      · simpa using congrArg Prod.snd ih'

/-! ### Facts about the stage functions -/

theorem natCharsAux_digits :
    ∀ (fuel n : Nat), n ≤ fuel → ∀ c ∈ natCharsAux fuel n, ∃ d, d < 10 ∧ c = digitChar d := by
  intro fuel
  induction fuel with
  | zero =>
      intro n hn c hc
      have hn0 : n = 0 := by omega
      subst hn0
      simp [natCharsAux] at hc
      exact ⟨0, by omega, hc⟩
  | succ m ih =>
      intro n hn c hc
      rw [natCharsAux] at hc
      split at hc
      · next h =>
          simp at hc
          exact ⟨n, h, hc⟩
      · next h =>
          simp at hc
          rcases hc with hc | hc
          · have hdiv : n / 10 ≤ m := by
              have hlt : n / 10 < n := Nat.div_lt_self (by omega) (by omega)
              omega
            exact ih (n / 10) hdiv c hc
          · exact ⟨n % 10, Nat.mod_lt n (by omega), hc⟩

theorem natChars_digits (n : Nat) : ∀ c ∈ natChars n, ∃ d, d < 10 ∧ c = digitChar d :=
  natCharsAux_digits n n le_rfl

theorem digitChar_ne_t (d : Nat) (hd : d < 10) : digitChar d ≠ 't' := by
  interval_cases d <;> decide

theorem intChars_ne_t (i : Int) : ∀ c ∈ intChars i, c ≠ 't' := by
  intro c hc
  rw [intChars] at hc
  split at hc
  · simp at hc
    rcases hc with hc | hc
    · rw [hc]; decide
    · obtain ⟨d, hd, hcd⟩ := natChars_digits _ c hc
      rw [hcd]; exact digitChar_ne_t d hd
  · obtain ⟨d, hd, hcd⟩ := natChars_digits _ c hc
    rw [hcd]; exact digitChar_ne_t d hd

/-- The fuel is irrelevant once it covers the length of the scanned list. -/
theorem replaceLAux_congr (pat rep : List Char) :
    ∀ (fuel fuel' : Nat) (l : List Char), l.length ≤ fuel → l.length ≤ fuel' →
      replaceLAux pat rep fuel l = replaceLAux pat rep fuel' l := by
  intro fuel
  induction fuel with
  | zero =>
      intro fuel' l h _h'
      have : l = [] := List.length_eq_zero.mp (by omega)
      subst this
      cases fuel' <;> rfl
  | succ m ih =>
      intro fuel' l h h'
      cases l with
      | nil => cases fuel' <;> rfl
      | cons c rest =>
          cases fuel' with
          | zero => simp at h'
          | succ m' =>
              rw [replaceLAux, replaceLAux]
              simp only [List.length_cons] at h h'
              split
              · have hd : (List.drop (pat.length - 1) rest).length ≤ m := by
                  simp only [List.length_drop]
                  omega
                have hd' : (List.drop (pat.length - 1) rest).length ≤ m' := by
                  simp only [List.length_drop]
                  omega
                rw [ih m' _ hd hd']
              · rw [ih m' rest (by omega) (by omega)]

theorem replaceL_nil_eq (pat rep : List Char) : replaceL pat rep [] = [] := rfl

theorem replaceL_cons_eq (pat rep : List Char) (c : Char) (rest : List Char) :
    replaceL pat rep (c :: rest) =
      if !pat.isEmpty && pat.isPrefixOf (c :: rest) then
        rep ++ replaceL pat rep (List.drop (pat.length - 1) rest)
      else c :: replaceL pat rep rest := by
  show replaceLAux pat rep (rest.length + 1) (c :: rest) = _
  rw [replaceLAux]
  split
  · rw [replaceL]
    congr 1
    apply replaceLAux_congr
    · simp only [List.length_drop]
      omega
    · exact le_rfl
  · rfl

/-- `replace` consumes a leading occurrence of the pattern. -/
theorem replaceL_head (p : Char) (ps rep tl : List Char) :
    replaceL (p :: ps) rep ((p :: ps) ++ tl) = rep ++ replaceL (p :: ps) rep tl := by
  have hpre : (p :: ps).isPrefixOf (p :: (ps ++ tl)) = true := by
    apply List.isPrefixOf_iff_prefix.mpr
    exact ⟨tl, by simp⟩
  rw [List.cons_append, replaceL_cons_eq]
  simp only [hpre, List.isEmpty_cons, Bool.not_false, Bool.and_self, if_true]
  congr 1
  simp

/-- `replace` leaves a string alone when no character matches the pattern head. -/
theorem replaceL_no_head (p : Char) (ps rep : List Char) (l : List Char)
    (h : ∀ c ∈ l, c ≠ p) : replaceL (p :: ps) rep l = l := by
  induction l with
  | nil => exact replaceL_nil_eq _ _
  | cons c cs ih =>
      rw [replaceL_cons_eq]
      have hc : c ≠ p := h c (by simp)
      have hpre : (p :: ps).isPrefixOf (c :: cs) = false := by
        rcases Bool.eq_false_or_eq_true ((p :: ps).isPrefixOf (c :: cs)) with hb | hb
        · obtain ⟨t, ht⟩ := List.isPrefixOf_iff_prefix.mp hb
          exact absurd (by simpa using congrArg (fun l => l.head?) ht) (Ne.symm hc)
        · exact hb
      simp [hpre]
      exact ih fun x hx => h x (by simp [hx])

/-- `get_result (get_token i)` is the string `"result_{i}"` for every int. -/
theorem get_result_get_token (i : Int) : get_result (get_token i) = resultChars i := by
  have hsplit : ("token_").data = ("token").data ++ [(Char.ofNat 95)] := by decide
  have hsplit2 : ("result_").data = ("result").data ++ [(Char.ofNat 95)] := by decide
  have htok : ("token").data = 't' :: ("oken").data := by decide
  rw [get_result, get_token, hsplit, List.append_assoc, htok, replaceL_head, ← htok]
  rw [replaceL_no_head]
  · rw [resultChars, hsplit2, List.append_assoc]
  · intro c hc
    simp at hc
    rcases hc with hc | hc
    · rw [hc]; decide
    · exact intChars_ne_t i c hc

/-! ### The call sequence of `main`, in closed form -/

theorem map_const_replicate (c : COp) (l : List Nat) :
    l.map (fun _ => c) = List.replicate l.length c := by
  induction l with
  | nil => rfl
  | cons a t ih => simp [List.replicate_succ, ih]

theorem stop_threads_ops_eq (c j t : COp) (ths : List Nat) :
    stop_threads_ops c j t ths
      = List.replicate ths.length c ++ j :: List.replicate ths.length t := by
  simp [stop_threads_ops, map_const_replicate]

theorem main_ops_eq (n k1 k2 : Nat) :
    main_ops n k1 k2
      = (List.range n).map COp.put0
          ++ (List.replicate k1 COp.close0 ++ COp.joinq0 :: List.replicate k1 COp.tj1)
          ++ (List.replicate k2 COp.close1c ++ COp.joinq1c :: List.replicate k2 COp.tj2)
          ++ [COp.close2c, COp.drainRes] := by
  simp [main_ops, stop_threads_ops_eq]

theorem count_main_ops_close0 (n k1 k2 : Nat) :
    (main_ops n k1 k2).count COp.close0 = k1 := by
  rw [main_ops_eq]
  simp [List.count_append, List.count_replicate, List.count_cons, List.count_eq_zero]

theorem count_main_ops_close1 (n k1 k2 : Nat) :
    (main_ops n k1 k2).count COp.close1c = k2 := by
  rw [main_ops_eq]
  simp [List.count_append, List.count_replicate, List.count_cons, List.count_eq_zero]

theorem count_main_ops_close2 (n k1 k2 : Nat) :
    (main_ops n k1 k2).count COp.close2c = 1 := by
  rw [main_ops_eq]
  simp [List.count_append, List.count_replicate, List.count_cons, List.count_eq_zero]

theorem join2c_not_mem_main_ops (n k1 k2 : Nat) : COp.join2c ∉ main_ops n k1 k2 := by
  rw [main_ops_eq]
  simp

theorem reach_sMid0 : Reach (mainCfg 0) sMid0 := by
  have st1 : Step (mainCfg 0) (initSt (mainCfg 0))
      { q0 := ⟨[], 0⟩, q1 := ⟨[], 0⟩, q2 := ⟨[], 0⟩, w1 := [WPhase.getting],
        w2 := [WPhase.getting], pc := CPC.closing1 0, collected := [] } :=
    Step.cFeedDone _ rfl
  have st2 : Step (mainCfg 0)
      { q0 := ⟨[], 0⟩, q1 := ⟨[], 0⟩, q2 := ⟨[], 0⟩, w1 := [WPhase.getting],
        w2 := [WPhase.getting], pc := CPC.closing1 0, collected := [] }
      { q0 := ⟨[QItem.stop], 1⟩, q1 := ⟨[], 0⟩, q2 := ⟨[], 0⟩, w1 := [WPhase.getting],
        w2 := [WPhase.getting], pc := CPC.closing1 1, collected := [] } :=
    Step.cClose1 _ 0 rfl (by decide)
  have st3 : Step (mainCfg 0)
      { q0 := ⟨[QItem.stop], 1⟩, q1 := ⟨[], 0⟩, q2 := ⟨[], 0⟩, w1 := [WPhase.getting],
        w2 := [WPhase.getting], pc := CPC.closing1 1, collected := [] }
      { q0 := ⟨[], 1⟩, q1 := ⟨[], 0⟩, q2 := ⟨[], 0⟩, w1 := [WPhase.stopping],
        w2 := [WPhase.getting], pc := CPC.closing1 1, collected := [] } :=
    Step.w1GetStop _ [] [] [] rfl rfl
  have st4 : Step (mainCfg 0)
      { q0 := ⟨[], 1⟩, q1 := ⟨[], 0⟩, q2 := ⟨[], 0⟩, w1 := [WPhase.stopping],
        w2 := [WPhase.getting], pc := CPC.closing1 1, collected := [] }
      { q0 := ⟨[], 0⟩, q1 := ⟨[], 0⟩, q2 := ⟨[], 0⟩, w1 := [WPhase.done],
        w2 := [WPhase.getting], pc := CPC.closing1 1, collected := [] } :=
    Step.w1AckStop _ [] [] rfl
  have st5 : Step (mainCfg 0)
      { q0 := ⟨[], 0⟩, q1 := ⟨[], 0⟩, q2 := ⟨[], 0⟩, w1 := [WPhase.done],
        w2 := [WPhase.getting], pc := CPC.closing1 1, collected := [] }
      { q0 := ⟨[], 0⟩, q1 := ⟨[], 0⟩, q2 := ⟨[], 0⟩, w1 := [WPhase.done],
        w2 := [WPhase.getting], pc := CPC.joinQ0, collected := [] } :=
    Step.cClose1Done _ rfl
  have st6 : Step (mainCfg 0)
      { q0 := ⟨[], 0⟩, q1 := ⟨[], 0⟩, q2 := ⟨[], 0⟩, w1 := [WPhase.done],
        w2 := [WPhase.getting], pc := CPC.joinQ0, collected := [] }
      { q0 := ⟨[], 0⟩, q1 := ⟨[], 0⟩, q2 := ⟨[], 0⟩, w1 := [WPhase.done],
        w2 := [WPhase.getting], pc := CPC.joinP1, collected := [] } :=
    Step.cJoinQ0 _ rfl rfl
  have st7 : Step (mainCfg 0)
      { q0 := ⟨[], 0⟩, q1 := ⟨[], 0⟩, q2 := ⟨[], 0⟩, w1 := [WPhase.done],
        w2 := [WPhase.getting], pc := CPC.joinP1, collected := [] }
      sMid0 :=
    Step.cJoinP1 _ rfl (by intro w hw; simpa using hw)
  exact Relation.ReflTransGen.head st1 (Relation.ReflTransGen.head st2
    (Relation.ReflTransGen.head st3 (Relation.ReflTransGen.head st4
      (Relation.ReflTransGen.head st5 (Relation.ReflTransGen.head st6
        (Relation.ReflTransGen.head st7 Relation.ReflTransGen.refl))))))

theorem reach_sFin0 : Reach (mainCfg 0) sFin0 := by
  have st8 : Step (mainCfg 0) sMid0
      { q0 := ⟨[], 0⟩, q1 := ⟨[QItem.stop], 1⟩, q2 := ⟨[], 0⟩, w1 := [WPhase.done],
        w2 := [WPhase.getting], pc := CPC.closing2 1, collected := [] } :=
    Step.cClose2 _ 0 rfl (by decide)
  have st9 : Step (mainCfg 0)
      { q0 := ⟨[], 0⟩, q1 := ⟨[QItem.stop], 1⟩, q2 := ⟨[], 0⟩, w1 := [WPhase.done],
        w2 := [WPhase.getting], pc := CPC.closing2 1, collected := [] }
      { q0 := ⟨[], 0⟩, q1 := ⟨[], 1⟩, q2 := ⟨[], 0⟩, w1 := [WPhase.done],
        w2 := [WPhase.stopping], pc := CPC.closing2 1, collected := [] } :=
    Step.w2GetStop _ [] [] [] rfl rfl
  have st10 : Step (mainCfg 0)
      { q0 := ⟨[], 0⟩, q1 := ⟨[], 1⟩, q2 := ⟨[], 0⟩, w1 := [WPhase.done],
        w2 := [WPhase.stopping], pc := CPC.closing2 1, collected := [] }
      { q0 := ⟨[], 0⟩, q1 := ⟨[], 0⟩, q2 := ⟨[], 0⟩, w1 := [WPhase.done],
        w2 := [WPhase.done], pc := CPC.closing2 1, collected := [] } :=
    Step.w2AckStop _ [] [] rfl
  have st11 : Step (mainCfg 0)
      { q0 := ⟨[], 0⟩, q1 := ⟨[], 0⟩, q2 := ⟨[], 0⟩, w1 := [WPhase.done],
        w2 := [WPhase.done], pc := CPC.closing2 1, collected := [] }
      { q0 := ⟨[], 0⟩, q1 := ⟨[], 0⟩, q2 := ⟨[], 0⟩, w1 := [WPhase.done],
        w2 := [WPhase.done], pc := CPC.joinQ1, collected := [] } :=
    Step.cClose2Done _ rfl
  have st12 : Step (mainCfg 0)
      { q0 := ⟨[], 0⟩, q1 := ⟨[], 0⟩, q2 := ⟨[], 0⟩, w1 := [WPhase.done],
        w2 := [WPhase.done], pc := CPC.joinQ1, collected := [] }
      { q0 := ⟨[], 0⟩, q1 := ⟨[], 0⟩, q2 := ⟨[], 0⟩, w1 := [WPhase.done],
        w2 := [WPhase.done], pc := CPC.joinP2, collected := [] } :=
    Step.cJoinQ1 _ rfl rfl
  have st13 : Step (mainCfg 0)
      { q0 := ⟨[], 0⟩, q1 := ⟨[], 0⟩, q2 := ⟨[], 0⟩, w1 := [WPhase.done],
        w2 := [WPhase.done], pc := CPC.joinP2, collected := [] }
      { q0 := ⟨[], 0⟩, q1 := ⟨[], 0⟩, q2 := ⟨[], 0⟩, w1 := [WPhase.done],
        w2 := [WPhase.done], pc := CPC.closeQ2, collected := [] } :=
    Step.cJoinP2 _ rfl (by intro w hw; simpa using hw)
  have st14 : Step (mainCfg 0)
      { q0 := ⟨[], 0⟩, q1 := ⟨[], 0⟩, q2 := ⟨[], 0⟩, w1 := [WPhase.done],
        w2 := [WPhase.done], pc := CPC.closeQ2, collected := [] }
      { q0 := ⟨[], 0⟩, q1 := ⟨[], 0⟩, q2 := ⟨[QItem.stop], 1⟩, w1 := [WPhase.done],
        w2 := [WPhase.done], pc := CPC.draining, collected := [] } :=
    Step.cCloseQ2 _ rfl
  have st15 : Step (mainCfg 0)
      { q0 := ⟨[], 0⟩, q1 := ⟨[], 0⟩, q2 := ⟨[QItem.stop], 1⟩, w1 := [WPhase.done],
        w2 := [WPhase.done], pc := CPC.draining, collected := [] }
      sFin0 :=
    Step.cDrainStop _ [] rfl rfl
  exact Relation.ReflTransGen.trans reach_sMid0
    (Relation.ReflTransGen.head st8 (Relation.ReflTransGen.head st9
      (Relation.ReflTransGen.head st10 (Relation.ReflTransGen.head st11
        (Relation.ReflTransGen.head st12 (Relation.ReflTransGen.head st13
          (Relation.ReflTransGen.head st14 (Relation.ReflTransGen.head st15
            Relation.ReflTransGen.refl))))))))

theorem terminal_sFin0 : Terminal (mainCfg 0) sFin0 :=
  terminal_of_finished (reach_inv reach_sFin0) rfl

/-! ## The claims -/

/-- C1: for every number of source items `N ≥ 0` fed by the coordinator into
the first queue, and any worker counts `≥ 1` per stage, the coordinator
eventually receives exactly `N` final results — from every reachable state the
run can only continue to a terminal state, and every reachable terminal state
has a finished coordinator holding, as a multiset, exactly the `N` source
items' final values (no loss, no duplication). -/
theorem C1_completeness (V : Type) (cfg : Cfg V) (h1 : 1 ≤ cfg.k1) (h2 : 1 ≤ cfg.k2) :
    (∀ s, Reach cfg s → ∃ t, Relation.ReflTransGen (Step cfg) s t ∧ Terminal cfg t) ∧
    (∀ s, Reach cfg s → Terminal cfg s →
        s.pc = CPC.finished ∧ s.collected.length = cfg.N ∧
        (s.collected : Multiset V) = (allResults cfg : List V)) := by
  constructor
  · intro s hr
    exact exists_terminal h1 h2 hr
  · intro s hr ht
    have hpc := terminal_finished hr ht h1 h2
    obtain ⟨_, _, _, _, _, hms, hlen⟩ := finished_state (reach_inv hr) hpc
    exact ⟨hpc, hlen, hms⟩

theorem C1_witness :
    sFin0.pc = CPC.finished ∧ sFin0.collected.length = (mainCfg 0).N ∧
      (sFin0.collected : Multiset PyVal) = (allResults (mainCfg 0) : List PyVal) :=
  (C1_completeness PyVal (mainCfg 0) (by decide) (by decide)).2 sFin0 reach_sFin0 terminal_sFin0

/-- C2 as stated is false: `sentinel = object()` is evaluated once, in the
class body, so two distinct `StoppingQueue` instances have the *same* sentinel
object — their sentinels are not distinct. -/
theorem C2_counterexample :
    (⟨1⟩ : PyQueueInst) ≠ (⟨2⟩ : PyQueueInst) ∧
      pyIs (PyQueueInst.sentinel ⟨1⟩) (PyQueueInst.sentinel ⟨2⟩) = true := by
  constructor
  · decide
  · rfl

/-- C2 (amended): the stop marker is one class-level sentinel object shared by
every `StoppingQueue` instance; it is recognized by identity and is never
identical to an int or str payload, and only the sentinel object itself
compares identical to it. -/
theorem C2_sentinel_identity :
    (∀ q r : PyQueueInst, pyIs q.sentinel r.sentinel = true) ∧
    (∀ (q : PyQueueInst) (n : Int), pyIs (PyVal.int n) q.sentinel = false) ∧
    (∀ (q : PyQueueInst) (s : List Char), pyIs (PyVal.str s) q.sentinel = false) ∧
    (∀ (q : PyQueueInst) (v : PyVal), pyIs v q.sentinel = true → v = sentinelClassAttr) := by
  refine ⟨fun q r => rfl, fun q n => rfl, fun q s => rfl, fun q v hv => ?_⟩
  cases v with
  | int n => simp [pyIs, PyQueueInst.sentinel, sentinelClassAttr] at hv
  | str s => simp [pyIs, PyQueueInst.sentinel, sentinelClassAttr] at hv
  | obj oid =>
      simp [pyIs, PyQueueInst.sentinel, sentinelClassAttr] at hv
      simp [sentinelClassAttr, hv]

theorem C2_witness :
    pyIs (PyVal.obj 0) (PyQueueInst.sentinel ⟨7⟩) = true ∧ PyVal.obj 0 = sentinelClassAttr :=
  ⟨rfl, C2_sentinel_identity.2.2.2 ⟨7⟩ (PyVal.obj 0) rfl⟩

/-- C3 as stated is false: `main` *does* explicitly close the results queue
(`results_queue.close()`) before iterating it — the close operation occurs in
`main`'s call sequence before the drain. -/
theorem C3_counterexample :
    ∃ l1 l2, main_ops srcN srcTokenThreads srcResultsThreads = l1 ++ COp.close2c :: l2 ∧
      COp.drainRes ∈ l2 := by
  refine ⟨(List.range srcN).map COp.put0
      ++ (List.replicate srcTokenThreads COp.close0
          ++ COp.joinq0 :: List.replicate srcTokenThreads COp.tj1)
      ++ (List.replicate srcResultsThreads COp.close1c
          ++ COp.joinq1c :: List.replicate srcResultsThreads COp.tj2),
    [COp.drainRes], ?_, by simp⟩
  rw [main_ops_eq]
  try simp

/-- C3 (amended): the coordinator never *joins* the results queue and does not
run `stop_threads` on it; instead it explicitly closes it exactly once,
immediately before draining it, and the drain terminates at the stop marker
(not by an external item count). -/
theorem C3_results_queue_protocol (n k1 k2 : Nat) :
    COp.join2c ∉ main_ops n k1 k2 ∧
    (main_ops n k1 k2).count COp.close2c = 1 ∧
    (∃ pre, main_ops n k1 k2 = pre ++ [COp.close2c, COp.drainRes]) ∧
    (∀ (V : Type) (xs : List V) (rest : List (QItem V)),
        yieldsOf (iterTrace (xs.map QItem.pay ++ QItem.stop :: rest)) = xs) := by
  refine ⟨join2c_not_mem_main_ops n k1 k2, count_main_ops_close2 n k1 k2, ?_, ?_⟩
  · refine ⟨(List.range n).map COp.put0
        ++ (List.replicate k1 COp.close0 ++ COp.joinq0 :: List.replicate k1 COp.tj1)
        ++ (List.replicate k2 COp.close1c ++ COp.joinq1c :: List.replicate k2 COp.tj2), ?_⟩
    rw [main_ops_eq]
    try simp
  · intro V xs rest
    exact yieldsOf_iterTrace xs rest

/-- C4: `stop_threads(queue, threads)` closes the queue exactly once per
thread handle, then joins the queue, then joins each thread; once the
coordinator is past a pool's `stop_threads`, every worker of that pool has
terminated; and from any reachable state the shutdown protocol runs to
completion (so `stop_threads` always returns). -/
theorem C4_stop_threads_protocol :
    (∀ (c j t : COp) (ths : List Nat),
        stop_threads_ops c j t ths
          = List.replicate ths.length c ++ j :: List.replicate ths.length t) ∧
    (∀ (V : Type) (cfg : Cfg V) (s : St V), Reach cfg s → past1 s.pc = true →
        ∀ w ∈ s.w1, w = WPhase.done) ∧
    (∀ (V : Type) (cfg : Cfg V) (s : St V), Reach cfg s → past2 s.pc = true →
        ∀ w ∈ s.w2, w = WPhase.done) ∧
    (∀ (V : Type) (cfg : Cfg V) (s : St V), 1 ≤ cfg.k1 → 1 ≤ cfg.k2 → Reach cfg s →
        ∃ t, Relation.ReflTransGen (Step cfg) s t ∧ Terminal cfg t) := by
  refine ⟨stop_threads_ops_eq, ?_, ?_, ?_⟩
  · intro V cfg s hr hpast
    exact (reach_inv hr).hp1 hpast
  · intro V cfg s hr hpast
    exact (reach_inv hr).hp2 hpast
  · intro V cfg s h1 h2 hr
    exact exists_terminal h1 h2 hr

theorem C4_witness :
    past1 sMid0.pc = true ∧ (∀ w ∈ sMid0.w1, w = WPhase.done) :=
  ⟨rfl, C4_stop_threads_protocol.2.1 PyVal (mainCfg 0) sMid0 reach_sMid0 rfl⟩

/-- C5: iterating a `StoppingQueue` yields the queued payloads in order,
terminates at the first stop marker without yielding it, and acknowledges
every popped item exactly once (the marker included), each acknowledgment
coming after the item was yielded — the trace is exactly
`yield x₀, ack, yield x₁, ack, …, ack(marker)`. -/
theorem C5_iterator_semantics (V : Type) (xs : List V) (rest : List (QItem V)) :
    iterTrace (xs.map QItem.pay ++ QItem.stop :: rest)
        = (xs.map fun v => [IterEv.yieldE v, IterEv.ackE]).flatten ++ [IterEv.ackE] ∧
    yieldsOf (iterTrace (xs.map QItem.pay ++ QItem.stop :: rest)) = xs ∧
    ackCount (iterTrace (xs.map QItem.pay ++ QItem.stop :: rest)) = xs.length + 1 :=
  ⟨iterTrace_shape xs rest, yieldsOf_iterTrace xs rest, ackCount_iterTrace xs rest⟩

/-- C6: a worker never acknowledges an input item before its transformed
result has been pushed: the worker trace is `get x, put (f x), task_done`
repeated, and in every prefix taken before the stop marker is popped the
number of acknowledgments never exceeds the number of completed `put`s. -/
theorem C6_ack_after_put (V : Type) (f : V → V) (xs : List V) (rest : List (QItem V)) :
    workerTrace f (xs.map QItem.pay ++ QItem.stop :: rest)
        = (xs.map fun v => [WEv.getPay v, WEv.putOut (QItem.pay (f v)), WEv.ackIn]).flatten
            ++ [WEv.getStop, WEv.ackIn] ∧
    (∀ p, p <+: workerTrace f (xs.map QItem.pay ++ QItem.stop :: rest) →
        (WEv.getStop : WEv V) ∉ p → ackInCount p ≤ putCount p) :=
  ⟨workerTrace_shape f xs rest, ack_le_put_until_stop f xs rest⟩

theorem C6_witness :
    ackInCount ((workerTrace (fun n : Nat => n + 1)
        ([3].map QItem.pay ++ QItem.stop :: [])).take 2)
      ≤ putCount ((workerTrace (fun n : Nat => n + 1)
        ([3].map QItem.pay ++ QItem.stop :: [])).take 2) :=
  (C6_ack_after_put Nat (fun n => n + 1) [3] []).2 _ ( List.take_prefix 2 _) (by decide)

/-- C7: with one worker per stage and inputs `0..N-1`, the final sequence is
exactly `["result_0", …, "result_{N-1}"]`; `get_result (get_token i)` is
`"result_{i}"` for every int `i`, and for `N = 5` the expected sequence is the
five literal strings. -/
theorem C7_single_worker_order :
    (∀ i : Int, get_result (get_token i) = resultChars i) ∧
    (∀ (n : Nat) (s : St PyVal), Reach (mainCfg n) s → Terminal (mainCfg n) s →
        s.collected = (List.range n).map fun i => PyVal.str (resultChars (Int.ofNat i))) ∧
    ((List.range 5).map (fun i => PyVal.str (resultChars (Int.ofNat i)))
        = [PyVal.str (("result_0").data), PyVal.str (("result_1").data),
           PyVal.str (("result_2").data), PyVal.str (("result_3").data),
           PyVal.str (("result_4").data)]) := by
  refine ⟨get_result_get_token, ?_, by decide⟩
  intro n s hr ht
  have hpc := terminal_finished hr ht le_rfl le_rfl
  have hcol := single_worker_collected rfl rfl hr hpc
  rw [hcol]
  simp [allResults, mainCfg, get_token_py, get_result_py, get_result_get_token]

theorem C7_witness :
    sFin0.collected = (List.range 0).map fun i => PyVal.str (resultChars (Int.ofNat i)) :=
  C7_single_worker_order.2.1 0 sFin0 reach_sFin0 terminal_sFin0

theorem ackInCount_raised (as : List V) (q : V → QItem V) (b : V) :
    ackInCount ((as.map fun a => [WEv.getPay a, WEv.putOut (q a), WEv.ackIn]).flatten
        ++ [WEv.getPay b]) = as.length := by
  induction as with
  | nil => simp [ackInCount]
  | cons a t ih =>
      simp [ackInCount, List.countP_append, List.countP_cons] at ih ⊢
      omega

theorem popCount_raised (as : List V) (q : V → QItem V) (b : V) :
    popCount ((as.map fun a => [WEv.getPay a, WEv.putOut (q a), WEv.ackIn]).flatten
        ++ [WEv.getPay b]) = as.length + 1 := by
  induction as with
  | nil => simp [popCount]
  | cons a t ih =>
      simp [popCount, List.countP_append, List.countP_cons] at ih ⊢
      omega

/-- C8: if a stage function raises on some item, the failure is unhandled —
the worker thread ends by the propagating exception, the failing item is
popped but never acknowledged (acknowledgments stop one short of pops), the
rest of the buffer including the stop marker is never consumed, and `join()`
on the input queue can never return because the unfinished count stays
positive. -/
theorem C8_error_stalls_pool (V : Type) (f : V → Option V) (as : List V) (b : V)
    (cs : List V) (rest : List (QItem V)) (buf : List (QItem V))
    (ha : ∀ a ∈ as, (f a).isSome) (hb : f b = none)
    (hbuf : buf = (as ++ b :: cs).map QItem.pay ++ QItem.stop :: rest) :
    (workerRunE f buf).2 = ROut.raisedR ∧
    ackInCount (workerRunE f buf).1 = as.length ∧
    popCount (workerRunE f buf).1 = as.length + 1 ∧
    0 < buf.length - ackInCount (workerRunE f buf).1 ∧
    (QState.mk (buf.drop (as.length + 1))
        (buf.length - ackInCount (workerRunE f buf).1)).joinCall = none := by
  subst hbuf
  rw [workerRunE_shape f as b cs rest ha hb]
  have hack := ackInCount_raised as (fun a => QItem.pay ((f a).getD a)) b
  have hpop := popCount_raised as (fun a => QItem.pay ((f a).getD a)) b
  have hlen : ((as ++ b :: cs).map QItem.pay ++ QItem.stop :: rest).length
      = as.length + cs.length + rest.length + 2 := by
    simp
    omega
  refine ⟨rfl, hack, hpop, ?_, ?_⟩
  · rw [hack, hlen]
    omega
  · rw [QState.joinCall]
    rw [hack, hlen]
    simp
    omega

theorem C8_witness :
    (∀ a ∈ [0], ((fun n : Nat => if n = 1 then none else some (n + 1)) a).isSome) ∧
    (fun n : Nat => if n = 1 then none else some (n + 1)) 1 = none ∧
    ((workerRunE (fun n : Nat => if n = 1 then none else some (n + 1))
        [QItem.pay 0, QItem.pay 1, QItem.pay 2, QItem.stop]).2 = ROut.raisedR ∧
      ackInCount (workerRunE (fun n : Nat => if n = 1 then none else some (n + 1))
        [QItem.pay 0, QItem.pay 1, QItem.pay 2, QItem.stop]).1 = [0].length ∧
      popCount (workerRunE (fun n : Nat => if n = 1 then none else some (n + 1))
        [QItem.pay 0, QItem.pay 1, QItem.pay 2, QItem.stop]).1 = [0].length + 1 ∧
      0 < [QItem.pay 0, QItem.pay 1, QItem.pay 2, QItem.stop].length
          - ackInCount (workerRunE (fun n : Nat => if n = 1 then none else some (n + 1))
              [QItem.pay 0, QItem.pay 1, QItem.pay 2, QItem.stop]).1 ∧
      (QState.mk ([QItem.pay 0, QItem.pay 1, QItem.pay 2, QItem.stop].drop ([0].length + 1))
          ([QItem.pay 0, QItem.pay 1, QItem.pay 2, QItem.stop].length
            - ackInCount (workerRunE (fun n : Nat => if n = 1 then none else some (n + 1))
                [QItem.pay 0, QItem.pay 1, QItem.pay 2, QItem.stop]).1)).joinCall = none) :=
  ⟨by decide, by decide,
    C8_error_stalls_pool Nat (fun n => if n = 1 then none else some (n + 1)) [0] 1 [2] []
      [QItem.pay 0, QItem.pay 1, QItem.pay 2, QItem.stop] (by decide) (by decide) (by decide)⟩

/-- C9: once a queue is drained (`unfinished_tasks = 0`), `join()` returns
immediately, returns the queue unchanged (no reordering, no
re-acknowledgment), and does so on every repeated call. -/
theorem C9_join_idempotent (V : Type) (q : QState V) (h : q.unfinished = 0) :
    q.joinCall = some q ∧
    q.joinCall.bind QState.joinCall = some q ∧
    (∀ n : Nat, (fun o => Option.bind o QState.joinCall)^[n] (some q) = some q) := by
  have h1 : q.joinCall = some q := by
    rw [QState.joinCall, if_pos h]
  refine ⟨h1, by rw [h1, Option.bind, h1], ?_⟩
  intro n
  induction n with
  | zero => rfl
  | succ m ih => rw [Function.iterate_succ_apply, Option.bind, h1, ih]

theorem C9_witness :
    ((⟨[], 0⟩ : QState Nat).unfinished = 0) ∧
    ((⟨[], 0⟩ : QState Nat).joinCall = some ⟨[], 0⟩ ∧
      (⟨[], 0⟩ : QState Nat).joinCall.bind QState.joinCall = some ⟨[], 0⟩ ∧
      (∀ n : Nat, (fun o => Option.bind o QState.joinCall)^[n] (some (⟨[], 0⟩ : QState Nat))
        = some ⟨[], 0⟩)) :=
  ⟨rfl, C9_join_idempotent Nat ⟨[], 0⟩ rfl⟩

/-- C10: a worker never pushes a stop marker downstream — every `put` in a
worker trace carries a payload, the loop stops at the first marker (the rest
of the buffer is irrelevant), markers in the downstream queues never exceed
the coordinator's own `close()` calls, and each queue is closed by its own
consumers' controller (`k1` closes of the todo queue, `k2` of the token
queue, one of the results queue). -/
theorem C10_no_marker_propagation :
    (∀ (V : Type) (f : V → V) (xs : List V) (rest : List (QItem V)) (x : QItem V),
        WEv.putOut x ∈ workerTrace f (xs.map QItem.pay ++ QItem.stop :: rest) →
          ∃ v, x = QItem.pay v) ∧
    (∀ (V : Type) (f : V → V) (xs : List V) (rest : List (QItem V)),
        workerTrace f (xs.map QItem.pay ++ QItem.stop :: rest)
          = workerTrace f (xs.map QItem.pay ++ [QItem.stop])) ∧
    (∀ (V : Type) (cfg : Cfg V) (s : St V), Reach cfg s →
        stopsOf s.q1.buf ≤ closes1 cfg s.pc ∧ stopsOf s.q2.buf ≤ stops2 s.pc) ∧
    (∀ n k1 k2 : Nat,
        (main_ops n k1 k2).count COp.close0 = k1 ∧
        (main_ops n k1 k2).count COp.close1c = k2 ∧
        (main_ops n k1 k2).count COp.close2c = 1) := by
  refine ⟨?_, ?_, ?_, ?_⟩
  · intro V f xs rest x hmem
    rw [workerTrace_shape] at hmem
    simp [List.mem_append, List.mem_flatten, List.mem_map] at hmem
    obtain ⟨a, _ha, hx⟩ := hmem
    exact ⟨f a, hx⟩
  · intro V f xs rest
    rw [workerTrace_shape, workerTrace_shape]
  · intro V cfg s hr
    have hI := reach_inv hr
    constructor
    · have := hI.hs1
      omega
    · exact le_of_eq hI.hs2
  · intro n k1 k2
    exact ⟨count_main_ops_close0 n k1 k2, count_main_ops_close1 n k1 k2,
      count_main_ops_close2 n k1 k2⟩

theorem C10_witness :
    (∃ v, (QItem.pay 4 : QItem Nat) = QItem.pay v) ∧
    (stopsOf (initSt (mainCfg 0)).q1.buf ≤ closes1 (mainCfg 0) (initSt (mainCfg 0)).pc ∧
      stopsOf (initSt (mainCfg 0)).q2.buf ≤ stops2 (initSt (mainCfg 0)).pc) :=
  ⟨C10_no_marker_propagation.1 Nat (fun n => n + 1) [3] [] (QItem.pay 4) (by decide),
    C10_no_marker_propagation.2.2.1 PyVal (mainCfg 0) (initSt (mainCfg 0))
      Relation.ReflTransGen.refl⟩

theorem C3_witness :
    COp.join2c ∉ main_ops srcN srcTokenThreads srcResultsThreads ∧
      (main_ops srcN srcTokenThreads srcResultsThreads).count COp.close2c = 1 :=
  ⟨(C3_results_queue_protocol srcN srcTokenThreads srcResultsThreads).1,
    (C3_results_queue_protocol srcN srcTokenThreads srcResultsThreads).2.1⟩

theorem C5_witness :
    yieldsOf (iterTrace (([3, 4] : List Nat).map QItem.pay ++ QItem.stop :: [QItem.pay 9]))
        = [3, 4] ∧
      ackCount (iterTrace (([3, 4] : List Nat).map QItem.pay ++ QItem.stop :: [QItem.pay 9]))
        = [3, 4].length + 1 :=
  ⟨(C5_iterator_semantics Nat [3, 4] [QItem.pay 9]).2.1,
    (C5_iterator_semantics Nat [3, 4] [QItem.pay 9]).2.2⟩

end ThreadsQueues

